import Mathlib

/-!
# ncc-neighborhood: a verification development

A shallow embedding of `cmd/ncc-neighborhood/main.go` and of the Go standard
library routines it calls, followed by theorems about the pipeline
query → aggregate → sort → CSV table → output file.

Modelling conventions.

* A Go `string` holding text is a Lean `String` (a sequence of code points);
  its bytes are the UTF-8 encoding `goBytes`. Every string that reaches the
  code below comes out of `encoding/json`, which only produces valid UTF-8.
* A Go `map[string]string` is an association list with distinct keys
  (`AList`); indexing a missing key yields the empty string. Go ranges over
  a map in an unspecified order; the model ranges in the order of the list,
  and the results below (a key set, a sorted header, a map built entry by
  entry) do not depend on that order.
* A slice that is sorted in place is the list of its cells; `Swap`
  exchanges two cells. Indices are natural numbers: the lengths at hand are
  far below the range of a Go `int`.
* Loops are structural recursions on the number of iterations that remain.
-/

set_option linter.unusedTactic false
set_option linter.unreachableTactic false
set_option linter.unnecessarySeqFocus false

namespace NccNeighborhood

/-! ## Go strings -/

/-- UTF-8 encoding of one code point: the bytes a Go string holds for it. -/
def utf8Rune (c : Nat) : List Nat :=
  if c < 0x80 then [c]
  else if c < 0x800 then [0xC0 + c / 64, 0x80 + c % 64]
  else if c < 0x10000 then [0xE0 + c / 4096, 0x80 + c / 64 % 64, 0x80 + c % 64]
  else [0xF0 + c / 262144, 0x80 + c / 4096 % 64, 0x80 + c / 64 % 64, 0x80 + c % 64]

/-- The byte sequence of a Go string holding the given text. -/
def goBytes (s : String) : List Nat :=
  s.data.flatMap (fun c => utf8Rune c.toNat)

/-- Three-way lexicographic comparison of two byte sequences. -/
def bytesCompare : List Nat → List Nat → Int
  | [], [] => 0
  | [], _ :: _ => -1
  | _ :: _, [] => 1
  | x :: xs, y :: ys =>
    if x < y then -1 else if y < x then 1 else bytesCompare xs ys

namespace strings

/-- Go `strings.Compare`: -1, 0 or +1 by byte-lexicographic order. -/
def Compare (a b : String) : Int :=
  bytesCompare (goBytes a) (goBytes b)

end strings

namespace unicode

/-- Go `unicode.IsSpace`: the Latin-1 switch, then the White_Space table. -/
def IsSpace (r : Char) : Bool :=
  let n := r.toNat
  if n ≤ 0xFF then
    decide (n = 0x09 ∨ n = 0x0A ∨ n = 0x0B ∨ n = 0x0C ∨ n = 0x0D ∨ n = 0x20 ∨
      n = 0x85 ∨ n = 0xA0)
  else
    decide (n = 0x1680 ∨ (0x2000 ≤ n ∧ n ≤ 0x200A) ∨ n = 0x2028 ∨ n = 0x2029 ∨
      n = 0x202F ∨ n = 0x205F ∨ n = 0x3000)

end unicode

namespace strings

/-- The loop of Go `strings.FieldsFunc`: `start` is the field being read
(`none` for Go's negative `start`), `spans` the fields closed so far. -/
def fieldsLoop (f : Char → Bool) :
    List Char → Option (List Char) → List (List Char) → List (List Char)
  | [], none, spans => spans
  | [], some cur, spans => spans ++ [cur]
  | c :: cs, start, spans =>
    if f c then
      match start with
      | some cur => fieldsLoop f cs none (spans ++ [cur])
      | none => fieldsLoop f cs none spans
    else
      match start with
      | some cur => fieldsLoop f cs (some (cur ++ [c])) spans
      | none => fieldsLoop f cs (some [c]) spans

/-- Go `strings.Fields`: split around runs of `unicode.IsSpace` characters.
The library has a fast path for ASCII input that computes the same fields;
the model follows `FieldsFunc(s, unicode.IsSpace)`. -/
def Fields (s : String) : List String :=
  (fieldsLoop unicode.IsSpace s.data none []).map String.mk

/-- Go `strings.Join`. -/
def Join : List String → String → String
  | [], _ => ""
  | [a], _ => a
  | a :: b :: rest, sep => a ++ sep ++ Join (b :: rest) sep

/-- Go `strings.Trim`: drop the leading and trailing characters of `cutset`. -/
def Trim (s cutset : String) : String :=
  ⟨((s.data.dropWhile (fun c => decide (c ∈ cutset.data))).rdropWhile
    (fun c => decide (c ∈ cutset.data)))⟩

end strings

/-- Go `fixValue` of main.go: eliminate redundant whitespace. -/
def fixValue (value : String) : String :=
  let value := strings.Join (strings.Fields value) " "
  let value := strings.Trim value " "
  value

/-- The maximal runs of non-whitespace characters of a text, in order: the
pieces between whitespace characters, the empty pieces left out. -/
def nonSpaceRuns (s : String) : List String :=
  ((s.data.splitOnP unicode.IsSpace).filter (fun run => decide (run ≠ []))).map String.mk

/-! ## strconv.ParseInt -/

namespace strconv

/-- The two `NumError` causes. -/
inductive NumError where
  | ErrSyntax
  | ErrRange
deriving DecidableEq, Repr

/-- Digit value of a byte in `ParseUint`: decimal digits and letters of either case. -/
def digitVal (c : Char) : Option Nat :=
  let n := c.toNat
  if 48 ≤ n ∧ n ≤ 57 then some (n - 48)
  else if 97 ≤ n ∧ n ≤ 122 then some (n - 97 + 10)
  else if 65 ≤ n ∧ n ≤ 90 then some (n - 65 + 10)
  else none

/-- The digit loop of `ParseUint`, `n` being the 64-bit accumulator. -/
def parseUintLoop (base cutoff maxVal : Nat) : List Char → Nat → Nat × Option NumError
  | [], n => (n, none)
  | c :: cs, n =>
    match digitVal c with
    | none => (0, some .ErrSyntax)
    | some d =>
      if d ≥ base then (0, some .ErrSyntax)
      else if n ≥ cutoff then (maxVal, some .ErrRange)
      else
        let n0 := (n * base) % 2 ^ 64
        let n1 := (n0 + d) % 2 ^ 64
        if n1 < n0 ∨ n1 > maxVal then (maxVal, some .ErrRange)
        else parseUintLoop base cutoff maxVal cs n1

/-- Go `strconv.ParseUint` for an explicit base between 2 and 36 and a bit
size between 1 and 64: the value and the error, `none` meaning `nil`. -/
def ParseUint (s : String) (base bitSize : Nat) : Nat × Option NumError :=
  if s = "" then (0, some .ErrSyntax)
  else
    let cutoff := (2 ^ 64 - 1) / base + 1
    let maxVal := 2 ^ bitSize - 1
    parseUintLoop base cutoff maxVal s.data 0

/-- Go `strconv.ParseInt` for an explicit base between 2 and 36 and a bit
size between 1 and 64: the value and the error, `none` meaning `nil`. -/
def ParseInt (s : String) (base bitSize : Nat) : Int × Option NumError :=
  if s = "" then (0, some .ErrSyntax)
  else
    let neg := s.data.head? = some (Char.ofNat 45)
    let rest : String :=
      if s.data.head? = some (Char.ofNat 43) ∨ s.data.head? = some (Char.ofNat 45) then
        ⟨s.data.tail⟩
      else s
    match ParseUint rest base bitSize with
    | (_, some .ErrSyntax) => (0, some .ErrSyntax)
    | (un, _) =>
      let cutoff := 2 ^ (bitSize - 1)
      if ¬ neg ∧ un ≥ cutoff then ((cutoff : Int) - 1, some .ErrRange)
      else if neg ∧ un > cutoff then (-(cutoff : Int), some .ErrRange)
      else if neg then (-(un : Int), none) else ((un : Int), none)

end strconv

/-! ## Records and the sort comparator -/

/-- A parcel record, Go `map[string]string`. -/
abbrev Record := AList (fun _ : String => String)

/-- Go map indexing `house[key]`: the value, or the empty string for a missing key. -/
def Record.get (r : Record) (key : String) : String :=
  (r.lookup key).getD ""

/-- The `less` closure handed to `sort.SliceStable` in `main`, on the two
records found at indices `i` and `j`. -/
def houseLess (left right : Record) : Bool :=
  let diff := strings.Compare (left.get "STNAME") (right.get "STNAME")
  if diff ≠ 0 then decide (diff < 0)
  else
    match strconv.ParseInt (left.get "STNO") 10 32 with
    | (_, some _) => true
    | (leftInt, none) =>
      match strconv.ParseInt (right.get "STNO") 10 32 with
      | (_, some _) => true
      | (rightInt, none) => decide (leftInt < rightInt)

/-- The record's STNO parses as a base-10 signed 32-bit integer. -/
def stnoParses (r : Record) : Prop :=
  (strconv.ParseInt (r.get "STNO") 10 32).2 = none

instance (r : Record) : Decidable (stnoParses r) := by
  unfold stnoParses; infer_instance

/-- The parsed STNO of a record. -/
def stnoInt (r : Record) : Int :=
  (strconv.ParseInt (r.get "STNO") 10 32).1

/-- The order the sort is meant to establish: STNAME ascending in byte order,
then the parsed STNO ascending. -/
def keyLe (a b : Record) : Prop :=
  strings.Compare (a.get "STNAME") (b.get "STNAME") < 0 ∨
    (a.get "STNAME" = b.get "STNAME" ∧ stnoInt a ≤ stnoInt b)

/-! ## sort.SliceStable -/

namespace sort

/-- The element in cell `k` of the slice, Go `data[k]` for an index in range. -/
def cell {α : Type} [Inhabited α] (data : List α) (k : Nat) : α :=
  data.getD k default

/-- Go `data.Less(i, j)` of `lessSwap`: the closure on the cells `i` and `j`
of the slice. -/
def Less {α : Type} [Inhabited α] (less : α → α → Bool) (data : List α) (i j : Nat) : Bool :=
  less (cell data i) (cell data j)

/-- Go `data.Swap(i, j)` of `lessSwap`: exchange the cells `i` and `j` of the slice. -/
def Swap {α : Type} [Inhabited α] (data : List α) (i j : Nat) : List α :=
  (data.set i (cell data j)).set j (cell data i)

/-- The inner loop of `insertionSort_func`:
`for j := i; j > a && data.Less(j, j-1); j-- { data.Swap(j, j-1) }`. -/
def insertionInner {α : Type} [Inhabited α] (less : α → α → Bool) (a : Nat) :
    Nat → List α → List α
  | 0, data => data
  | j + 1, data =>
    if j + 1 > a ∧ Less less data (j + 1) j = true then
      insertionInner less a j (Swap data (j + 1) j)
    else data

/-- The outer loop of `insertionSort_func`, at index `i` with `cnt` iterations left. -/
def insertionOuter {α : Type} [Inhabited α] (less : α → α → Bool) (a : Nat) :
    Nat → Nat → List α → List α
  | 0, _, data => data
  | cnt + 1, i, data => insertionOuter less a cnt (i + 1) (insertionInner less a i data)

/-- Go `insertionSort_func(data, a, b)`: `for i := a + 1; i < b; i++ { ... }`. -/
def insertionSort_func {α : Type} [Inhabited α] (less : α → α → Bool) (data : List α)
    (a b : Nat) : List α :=
  insertionOuter less a (b - (a + 1)) (a + 1) data

/-- The binary-search loop that `symMerge_func` runs three times, each time
with its own test `cond`:
`for i < j { h := (i+j)/2; if cond(h) { i = h + 1 } else { j = h } }`, giving the final `i`. -/
def searchLoop (cond : Nat → Bool) : Nat → Nat → Nat → Nat
  | 0, i, _ => i
  | fuel + 1, i, j =>
    if i < j then
      if cond ((i + j) / 2) then searchLoop cond fuel ((i + j) / 2 + 1) j
      else searchLoop cond fuel i ((i + j) / 2)
    else i

/-- The loop `for k := a; k < i-1; k++ { data.Swap(k, k+1) }`, `cnt` iterations from `k`. -/
def swapUp {α : Type} [Inhabited α] : Nat → Nat → List α → List α
  | 0, _, data => data
  | cnt + 1, k, data => swapUp cnt (k + 1) (Swap data k (k + 1))

/-- The loop `for k := m; k > i; k-- { data.Swap(k, k-1) }`, `cnt` iterations from `k`. -/
def swapDown {α : Type} [Inhabited α] : Nat → Nat → List α → List α
  | 0, _, data => data
  | cnt + 1, k, data => swapDown cnt (k - 1) (Swap data k (k - 1))

/-- Go `swapRange_func(data, a, b, n)`: `for i := 0; i < n; i++ { data.Swap(a+i, b+i) }`. -/
def swapRange_func {α : Type} [Inhabited α] (data : List α) (a b : Nat) : Nat → List α
  | 0 => data
  | n + 1 => Swap (swapRange_func data a b n) (a + n) (b + n)

/-- The loop of `rotate_func` on the block sizes `i` and `j`, then its last `swapRange_func`. -/
def rotateLoop {α : Type} [Inhabited α] (m : Nat) : Nat → Nat → Nat → List α → List α
  | 0, i, _, data => swapRange_func data (m - i) m i
  | fuel + 1, i, j, data =>
    if i ≠ j then
      if i > j then rotateLoop m fuel (i - j) j (swapRange_func data (m - i) m j)
      else rotateLoop m fuel i (j - i) (swapRange_func data (m - i) (m + j - i) i)
    else swapRange_func data (m - i) m i

/-- Go `rotate_func(data, a, m, b)`: exchange the blocks `data[a:m]` and `data[m:b]`. -/
def rotate_func {α : Type} [Inhabited α] (data : List α) (a m b : Nat) : List α :=
  rotateLoop m ((m - a) + (b - m)) (m - a) (b - m) data

/-- Go `symMerge_func(data, a, m, b)`: merge the sorted runs `data[a:m]` and
`data[m:b]`. The recursion depth is bounded by `fuel`; the callers pass
`b - a`, which is enough whatever the comparator (`symMerge_func_fuel`). -/
def symMerge_func {α : Type} [Inhabited α] (less : α → α → Bool) :
    Nat → List α → Nat → Nat → Nat → List α
  | 0, data, _, _, _ => data
  | fuel + 1, data, a, m, b =>
    if m - a = 1 then
      let i := searchLoop (fun h => Less less data h a) (b - m) m b
      swapUp (i - 1 - a) a data
    else if b - m = 1 then
      let i := searchLoop (fun h => !Less less data m h) (m - a) a m
      swapDown (m - i) m data
    else
      let mid := (a + b) / 2
      let n := mid + m
      let start0 := if m > mid then n - b else a
      let r := if m > mid then mid else m
      let p := n - 1
      let start := searchLoop (fun c => !Less less data (p - c) c) (r - start0) start0 r
      let stop := n - start
      let data1 := if start < m ∧ m < stop then rotate_func data start m stop else data
      let data2 :=
        if a < start ∧ start < mid then symMerge_func less fuel data1 a start mid else data1
      if mid < stop ∧ stop < b then symMerge_func less fuel data2 mid stop b else data2

/-- The first loop of `stable_func` and the call after it: insertion-sort
each block of `blockSize` cells, then the remainder. -/
def insertBlocks {α : Type} [Inhabited α] (less : α → α → Bool) (n blockSize : Nat) :
    Nat → Nat → Nat → List α → List α
  | 0, a, _, data => insertionSort_func less data a n
  | fuel + 1, a, b, data =>
    if b ≤ n then
      insertBlocks less n blockSize fuel b (b + blockSize) (insertionSort_func less data a b)
    else insertionSort_func less data a n

/-- One pass of the second loop of `stable_func`: merge neighbouring blocks
pairwise, `a` and `b` being the loop variables. -/
def mergePass {α : Type} [Inhabited α] (less : α → α → Bool) (n blockSize : Nat) :
    Nat → Nat → Nat → List α → List α
  | 0, _, _, data => data
  | fuel + 1, a, b, data =>
    if b ≤ n then
      mergePass less n blockSize fuel b (b + 2 * blockSize)
        (symMerge_func less (b - a) data a (a + blockSize) b)
    else if a + blockSize < n then symMerge_func less (n - a) data a (a + blockSize) n
    else data

/-- The second loop of `stable_func`: `for blockSize < n { ...; blockSize *= 2 }`. -/
def mergePasses {α : Type} [Inhabited α] (less : α → α → Bool) (n : Nat) :
    Nat → Nat → List α → List α
  | 0, _, data => data
  | fuel + 1, blockSize, data =>
    if blockSize < n then
      mergePasses less n fuel (2 * blockSize)
        (mergePass less n blockSize (n + 1) 0 (2 * blockSize) data)
    else data

/-- Go `stable_func(data, n)`. -/
def stable_func {α : Type} [Inhabited α] (less : α → α → Bool) (data : List α) (n : Nat) :
    List α :=
  mergePasses less n n 20 (insertBlocks less n 20 n 0 20 data)

/-- Go `sort.SliceStable(x, less)`, `less` comparing the elements at two indices. -/
def SliceStable {α : Type} [Inhabited α] (less : α → α → Bool) (x : List α) : List α :=
  stable_func less x x.length

/-- The cells `a ≤ k < b` of the slice are in non-decreasing order for `less`:
no later cell is less than an earlier one. -/
def SortedOn {α : Type} [Inhabited α] (less : α → α → Bool) (data : List α) (a b : Nat) :
    Prop :=
  ∀ i j, a ≤ i → i < j → j < b → less (cell data j) (cell data i) = false

/-- The slice `out` is the slice `data` with the cells `a ≤ k < b` rearranged
and all other cells left as they were. -/
def PermOn {α : Type} [Inhabited α] (data out : List α) (a b : Nat) : Prop :=
  out.length = data.length ∧
    ∃ σ : Equiv.Perm Nat, (∀ k, cell out k = cell data (σ k)) ∧
      ∀ k, (k < a ∨ b ≤ k) → σ k = k

/-- Every block of `blockSize` cells of the first `n` cells is sorted, the
last block being cut at `n`. -/
def BlocksSorted {α : Type} [Inhabited α] (less : α → α → Bool) (data : List α)
    (blockSize n : Nat) : Prop :=
  ∀ q, SortedOn less data (q * blockSize) (min (q * blockSize + blockSize) n)

/-- The comparator `less` is a strict weak order on the elements that satisfy `S`. -/
structure WeakOrderOn {α : Type} (less : α → α → Bool) (S : α → Prop) : Prop where
  irrefl : ∀ x, S x → less x x = false
  trans : ∀ x y z, S x → S y → S z → less x y = true → less y z = true → less x z = true
  incomp : ∀ x y z, S x → S y → S z → less x y = false → less y z = false → less x z = false

/-- Go `sort.Strings`: the strings in increasing byte order. The order on
strings is total, so the sorted arrangement of distinct strings is unique and
does not depend on the algorithm of the library; it is computed here by
insertion. -/
def Strings (x : List String) : List String :=
  x.insertionSort (fun a b => strings.Compare a b ≤ 0)

end sort

/-! ## The CSV table -/

/-- The first loop of the header block of `main`: the key set `csvHeaderFields`. -/
def csvHeaderFields (houses : List Record) : AList (fun _ : String => Bool) :=
  houses.foldl (fun fields house => house.keys.foldl (fun fs key => fs.insert key true) fields) ∅

/-- The header of `main`: the keys of `csvHeaderFields`, sorted. -/
def csvHeader (houses : List Record) : List String :=
  sort.Strings (csvHeaderFields houses).keys

/-- The row `houseLine` of one record under a header. -/
def houseLine (header : List String) (house : Record) : List String :=
  header.map (fun key => house.get key)

/-- The table `csvData` of `main`: the header, then one row per record. -/
def csvData (houses : List Record) : List (List String) :=
  [csvHeader houses] ++ houses.map (houseLine (csvHeader houses))

/-! ## querySubdivision -/

/-- One element of `MapFindResponse.Results`. -/
structure MapFindResult where
  Attributes : Record

/-- The field `MapFindResponse.Error`. -/
structure MapFindError where
  Code : Int
  Message : String

/-- Go `MapFindResponse`. -/
structure MapFindResponse where
  Results : List MapFindResult
  Error : MapFindError

/-- What `http.Get` hands back on success: the status code and the outcome of
reading the body. -/
structure HttpResponse where
  StatusCode : Int
  Body : Except String (List Nat)

/-- The errors `querySubdivision` returns. -/
inductive QueryError where
  | request (cause : String)
  | status (code : Int)
  | read (cause : String)
  | decode (cause : String)
  | api (code : Int) (message : String)

/-- The attribute loop of `querySubdivision`:
`for key, value := range Attributes { attributes[key] = fixValue(value) }`. -/
def fixAttributes (attrs : Record) : Record :=
  attrs.entries.foldl (fun attributes e => attributes.insert e.1 (fixValue e.2)) ∅

/-- Go `querySubdivision` from the return of `http.Get` on: `get` is the
outcome of the request and `unmarshal` stands for `json.Unmarshal` into a
`MapFindResponse`. -/
def querySubdivision (unmarshal : List Nat → Except String MapFindResponse)
    (get : Except String HttpResponse) : Except QueryError (List Record) :=
  match get with
  | .error err => .error (.request err)
  | .ok response =>
    if response.StatusCode ≠ 200 then .error (.status response.StatusCode)
    else
      match response.Body with
      | .error err => .error (.read err)
      | .ok contents =>
        match unmarshal contents with
        | .error err => .error (.decode err)
        | .ok mapFindResponse =>
          if mapFindResponse.Error.Code > 299 then
            .error (.api mapFindResponse.Error.Code mapFindResponse.Error.Message)
          else
            .ok (mapFindResponse.Results.map (fun result => fixAttributes result.Attributes))

/-! ## The aggregation loop -/

/-- The loop of `main` over the subdivisions. `query` is `querySubdivision`
with the state of the outside world passed explicitly; `houses` is the slice
accumulated so far. -/
def aggregate {σ : Type} (query : σ → String → Except QueryError (List Record) × σ) :
    List String → σ → List Record → List Record × σ
  | [], w, houses => (houses, w)
  | subdivision :: rest, w, houses =>
    match query w subdivision with
    | (.error _, w1) => aggregate query rest w1 houses
    | (.ok results, w1) => aggregate query rest w1 (houses ++ results)

/-- The outcomes of querying each subdivision in turn, the world threaded through. -/
def queryOutcomes {σ : Type} (query : σ → String → Except QueryError (List Record) × σ) :
    List String → σ → List (Except QueryError (List Record))
  | [], _ => []
  | subdivision :: rest, w =>
    (query w subdivision).1 :: queryOutcomes query rest (query w subdivision).2

/-- The records of a successful outcome, nothing for a failed one. -/
def outcomeRecords : Except QueryError (List Record) → List Record
  | .error _ => []
  | .ok results => results

/-! ## The output file -/

namespace os

/-- The flags of `os.OpenFile` that matter for a regular file opened for writing. -/
structure OpenFlag where
  O_CREATE : Bool
  O_WRONLY : Bool
  O_TRUNC : Bool

/-- The content of the file right after `os.OpenFile(name, flag, perm)`
succeeds, from its prior state (`none`: no such file); `none` when the open fails. -/
def OpenFile (prior : Option (List Nat)) (flag : OpenFlag) : Option (List Nat) :=
  match prior with
  | none => if flag.O_CREATE then some [] else none
  | some content => if flag.O_TRUNC then some [] else some content

/-- Writing `bytes` at offset `off` of a file: the bytes under the write are
replaced, the others stay. -/
def writeAt (content : List Nat) (off : Nat) (bytes : List Nat) : List Nat :=
  content.take off ++ bytes ++ content.drop (off + bytes.length)

end os

/-- The output step of `main` for a path other than "-": open with
`os.O_CREATE|os.O_WRONLY`, then write the rendered CSV from offset 0. The
result is the file content after the run, `none` when the open fails. -/
def writeOutputFile (prior : Option (List Nat)) (rendered : List Nat) : Option (List Nat) :=
  match os.OpenFile prior ⟨true, true, false⟩ with
  | none => none
  | some content => some (os.writeAt content 0 rendered)

/-! ## The pipeline of main -/

/-- The table `main` builds: aggregate, sort, then lay out the rows. -/
def mainCsvData {σ : Type} (query : σ → String → Except QueryError (List Record) × σ)
    (subdivisions : List String) (w : σ) : List (List String) :=
  csvData (sort.SliceStable houseLess (aggregate query subdivisions w []).1)


/-! ## Byte order on strings -/

theorem bytesCompare_self (x : List Nat) : bytesCompare x x = 0 := by
  induction x with
  | nil => rfl
  | cons a t ih => simp [bytesCompare, ih]

theorem bytesCompare_range (x y : List Nat) :
    bytesCompare x y = -1 ∨ bytesCompare x y = 0 ∨ bytesCompare x y = 1 := by
  induction x generalizing y with
  | nil => cases y <;> simp [bytesCompare]
  | cons a t ih =>
    cases y with
    | nil => simp [bytesCompare]
    | cons b u =>
      simp only [bytesCompare]
      split_ifs
      · simp
      · simp
      · exact ih u

theorem bytesCompare_eq_zero {x y : List Nat} (h : bytesCompare x y = 0) : x = y := by
  induction x generalizing y with
  | nil => cases y with
    | nil => rfl
    | cons b u => simp [bytesCompare] at h
  | cons a t ih =>
    cases y with
    | nil => simp [bytesCompare] at h
    | cons b u =>
      simp only [bytesCompare] at h
      split_ifs at h with h1 h2
      all_goals first
        | omega
        | (have hab : a = b := by omega
           rw [hab, ih h])

theorem bytesCompare_swap (x y : List Nat) : bytesCompare y x = - bytesCompare x y := by
  induction x generalizing y with
  | nil => cases y <;> simp [bytesCompare]
  | cons a t ih =>
    cases y with
    | nil => simp [bytesCompare]
    | cons b u =>
      simp only [bytesCompare]
      rcases Nat.lt_trichotomy a b with h | h | h
      · simp [h, Nat.lt_asymm h]
      · subst h
        simp [ih u]
      · simp [h, Nat.lt_asymm h]

theorem bytesCompare_lt_trans {x y z : List Nat} (h1 : bytesCompare x y < 0)
    (h2 : bytesCompare y z < 0) : bytesCompare x z < 0 := by
  induction x generalizing y z with
  | nil =>
    cases z with
    | nil => cases y <;> simp [bytesCompare] at h1 h2
    | cons c v => simp [bytesCompare]
  | cons a t ih =>
    cases y with
    | nil => simp [bytesCompare] at h1
    | cons b u =>
      cases z with
      | nil => simp [bytesCompare] at h2
      | cons c v =>
        simp only [bytesCompare] at h1 h2 ⊢
        split_ifs at h1 h2 ⊢ <;> first | omega | (exact ih h1 h2)

theorem utf8Rune_append_inj {c d : Nat} {xs ys : List Nat}
    (h : utf8Rune c ++ xs = utf8Rune d ++ ys) : c = d ∧ xs = ys := by
  unfold utf8Rune at h
  split_ifs at h <;> simp at h <;>
    first
      | (exfalso; omega)
      | (constructor
         · omega
         · tauto)

theorem goBytes_inj {s t : String} (h : goBytes s = goBytes t) : s = t := by
  obtain ⟨l⟩ := s
  obtain ⟨r⟩ := t
  simp only [goBytes] at h
  congr 1
  induction l generalizing r with
  | nil =>
    cases r with
    | nil => rfl
    | cons d r =>
      simp [utf8Rune] at h
      split_ifs at h <;> simp at h
  | cons c l ih =>
    cases r with
    | nil =>
      simp [utf8Rune] at h
      split_ifs at h <;> simp at h
    | cons d r =>
      simp only [List.flatMap_cons] at h
      obtain ⟨h1, h2⟩ := utf8Rune_append_inj h
      have : c = d := by
        apply Char.ext
        apply UInt32.ext
        exact h1
      rw [this, ih r h2]

theorem Compare_self (a : String) : strings.Compare a a = 0 := bytesCompare_self _

theorem Compare_eq_zero_iff {a b : String} : strings.Compare a b = 0 ↔ a = b :=
  ⟨fun h => goBytes_inj (bytesCompare_eq_zero h), fun h => h ▸ Compare_self a⟩

theorem Compare_swap (a b : String) : strings.Compare b a = - strings.Compare a b :=
  bytesCompare_swap _ _

theorem Compare_lt_trans {a b c : String} (h1 : strings.Compare a b < 0)
    (h2 : strings.Compare b c < 0) : strings.Compare a c < 0 :=
  bytesCompare_lt_trans h1 h2

/-- The model of `strconv.ParseInt(s, 10, 32)` on sample inputs: decimal
numbers in the 32-bit range parse; the empty string, a bare sign, text and
numbers out of the range do not. -/
theorem ParseInt_samples :
    strconv.ParseInt "12" 10 32 = (12, none) ∧
    strconv.ParseInt "-2147483648" 10 32 = (-2147483648, none) ∧
    strconv.ParseInt "+7" 10 32 = (7, none) ∧
    strconv.ParseInt "" 10 32 = (0, some .ErrSyntax) ∧
    strconv.ParseInt "-" 10 32 = (0, some .ErrSyntax) ∧
    strconv.ParseInt "12A" 10 32 = (0, some .ErrSyntax) ∧
    strconv.ParseInt "1 2" 10 32 = (0, some .ErrSyntax) ∧
    strconv.ParseInt "2147483648" 10 32 = (2147483647, some .ErrRange) ∧
    strconv.ParseInt "-2147483649" 10 32 = (-2147483648, some .ErrRange) := by
  decide


/-! ## The comparator on records whose STNO does not parse -/

/-- C10. For two records with equal STNAME of which at least one has an STNO
that fails to parse as a base-10 signed 32-bit integer, the comparator of the
sort reports the left record as less than the right one, and this in both
directions: it is not asymmetric on such a pair. -/
theorem houseLess_unparsable_both_directions (a b : Record)
    (hname : a.get "STNAME" = b.get "STNAME")
    (hparse : ¬ stnoParses a ∨ ¬ stnoParses b) :
    houseLess a b = true ∧ houseLess b a = true := by
  have key : ∀ x y : Record, x.get "STNAME" = y.get "STNAME" →
      (¬ stnoParses x ∨ ¬ stnoParses y) → houseLess x y = true := by
    intro x y hxy hp
    unfold houseLess
    simp only [hxy, Compare_self, ne_eq, not_true_eq_false, if_false]
    unfold stnoParses at hp
    rcases hx : strconv.ParseInt (x.get "STNO") 10 32 with ⟨vx, ex⟩
    rcases hy : strconv.ParseInt (y.get "STNO") 10 32 with ⟨vy, ey⟩
    rw [hx, hy] at hp
    cases ex with
    | some e => rfl
    | none =>
      cases ey with
      | some e => rfl
      | none => simp at hp
  exact ⟨key a b hname hparse, key b a hname.symm hparse.symm⟩

/-- C10 at a concrete pair: two ELM records, one without an STNO and one with STNO "7". -/
theorem houseLess_unparsable_both_directions_witness :
    houseLess ((∅ : Record).insert "STNAME" "ELM")
        (((∅ : Record).insert "STNAME" "ELM").insert "STNO" "7") = true ∧
      houseLess (((∅ : Record).insert "STNAME" "ELM").insert "STNO" "7")
        ((∅ : Record).insert "STNAME" "ELM") = true :=
  houseLess_unparsable_both_directions _ _ (by decide) (Or.inl (by decide))

/-! ## The aggregation loop -/

theorem aggregate_fst {σ : Type}
    (query : σ → String → Except QueryError (List Record) × σ)
    (subdivisions : List String) (w : σ) (houses : List Record) :
    (aggregate query subdivisions w houses).1 =
      houses ++ ((queryOutcomes query subdivisions w).map outcomeRecords).flatten := by
  induction subdivisions generalizing w houses with
  | nil => simp [aggregate, queryOutcomes]
  | cons s rest ih =>
    simp only [aggregate, queryOutcomes, List.map_cons, List.flatten_cons]
    rcases hq : query w s with ⟨res, w1⟩
    cases res with
    | error e => simp [ih, outcomeRecords]
    | ok results => simp [ih, outcomeRecords, List.append_assoc]

theorem queryOutcomes_length {σ : Type}
    (query : σ → String → Except QueryError (List Record) × σ)
    (subdivisions : List String) (w : σ) :
    (queryOutcomes query subdivisions w).length = subdivisions.length := by
  induction subdivisions generalizing w with
  | nil => rfl
  | cons s rest ih => simp [queryOutcomes, ih]

theorem aggregate_snd {σ : Type}
    (query : σ → String → Except QueryError (List Record) × σ)
    (subdivisions : List String) (w : σ) (houses : List Record) :
    (aggregate query subdivisions w houses).2 =
      subdivisions.foldl (fun w1 subdivision => (query w1 subdivision).2) w := by
  induction subdivisions generalizing w houses with
  | nil => rfl
  | cons s rest ih =>
    simp only [aggregate, List.foldl_cons]
    rcases hq : query w s with ⟨res, w1⟩
    cases res with
    | error e => simp [ih]
    | ok results => simp [ih]

/-- C6. Whatever the subdivisions and whatever each query returns, every
subdivision is queried once, in order (the outside world ends in the state
all the queries leave it in), and the slice accumulated by the loop of main
is the concatenation, in that order, of the record sequences of the queries
that succeeded; a failed query adds nothing and stops nothing. If the query
of A fails and that of B succeeds, the result is the records of B. -/
theorem aggregate_concat_of_successes {σ : Type}
    (query : σ → String → Except QueryError (List Record) × σ)
    (subdivisions : List String) (w : σ) :
    (queryOutcomes query subdivisions w).length = subdivisions.length ∧
    (aggregate query subdivisions w []).2 =
      subdivisions.foldl (fun w1 subdivision => (query w1 subdivision).2) w ∧
    (aggregate query subdivisions w []).1 =
      ((queryOutcomes query subdivisions w).map outcomeRecords).flatten ∧
    (∀ (A B : String) (e : QueryError) (w1 w2 : σ) (recs : List Record),
      query w A = (.error e, w1) → query w1 B = (.ok recs, w2) →
      (aggregate query [A, B] w []).1 = recs) := by
  refine ⟨queryOutcomes_length query subdivisions w, aggregate_snd query subdivisions w [],
    ?_, ?_⟩
  · simpa using aggregate_fst query subdivisions w []
  · intro A B e w1 w2 recs hA hB
    simp [aggregate, hA, hB]

/-! ## querySubdivision -/

theorem foldl_fix_lookup (l : List (Sigma fun _ : String => String)) (hl : l.NodupKeys)
    (acc : Record) (k : String) :
    (l.foldl (fun attributes e => AList.insert e.1 (fixValue e.2) attributes) acc).lookup k =
      match l.dlookup k with
      | some v => some (fixValue v)
      | none => acc.lookup k := by
  induction l generalizing acc with
  | nil => simp
  | cons e t ih =>
    obtain ⟨ek, ev⟩ := e
    rw [List.nodupKeys_cons] at hl
    simp only [List.foldl_cons]
    rw [ih hl.2]
    by_cases hk : k = ek
    · subst hk
      have hnone : List.dlookup k t = none := by
        rw [List.dlookup_eq_none]; exact hl.1
      simp [hnone, AList.lookup_insert]
    · have hk2 : ek ≠ k := fun h => hk h.symm
      rw [List.dlookup_cons_ne _ _ hk]
      cases List.dlookup k t with
      | some v => rfl
      | none => simp [AList.lookup_insert_ne hk]

theorem fixAttributes_lookup (attrs : Record) (k : String) :
    (fixAttributes attrs).lookup k = (attrs.lookup k).map fixValue := by
  unfold fixAttributes
  rw [foldl_fix_lookup attrs.entries attrs.nodupKeys]
  show _ = Option.map fixValue (List.dlookup k attrs.entries)
  cases List.dlookup k attrs.entries <;> simp

theorem fixAttributes_mem (attrs : Record) (k : String) :
    k ∈ (fixAttributes attrs).keys ↔ k ∈ attrs.keys := by
  rw [← AList.mem_keys, ← AList.mem_keys, ← AList.lookup_isSome, ← AList.lookup_isSome,
    fixAttributes_lookup]
  cases attrs.lookup k <;> simp

/-- C5. With the request sent and the body read, querySubdivision returns an
error when the status code is not 200, when the body does not decode, and
when the decoded error code exceeds 299; in every other case (a status of
200, a decoded envelope with error code at most 299) it returns one record
per entry of the results, in order, with exactly the keys of the attributes
of that entry and, under each key, fixValue of the original value. -/
theorem querySubdivision_result (unmarshal : List Nat → Except String MapFindResponse)
    (status : Int) (body : List Nat) :
    (status ≠ 200 → ∃ e, querySubdivision unmarshal (.ok ⟨status, .ok body⟩) = .error e) ∧
    (∀ cause, unmarshal body = .error cause →
      ∃ e, querySubdivision unmarshal (.ok ⟨status, .ok body⟩) = .error e) ∧
    (∀ resp, unmarshal body = .ok resp → resp.Error.Code > 299 →
      ∃ e, querySubdivision unmarshal (.ok ⟨status, .ok body⟩) = .error e) ∧
    (∀ resp, status = 200 → unmarshal body = .ok resp → resp.Error.Code ≤ 299 →
      ∃ records, querySubdivision unmarshal (.ok ⟨status, .ok body⟩) = .ok records ∧
        records.length = resp.Results.length ∧
        ∀ i (hi : i < resp.Results.length) (hr : i < records.length),
          (∀ key, key ∈ (records.get ⟨i, hr⟩).keys ↔
            key ∈ (resp.Results.get ⟨i, hi⟩).Attributes.keys) ∧
          (∀ key, (records.get ⟨i, hr⟩).lookup key =
            ((resp.Results.get ⟨i, hi⟩).Attributes.lookup key).map fixValue)) := by
  refine ⟨?_, ?_, ?_, ?_⟩
  · intro h
    exact ⟨.status status, by simp [querySubdivision, h]⟩
  · intro cause h
    by_cases hs : status = 200
    · exact ⟨.decode cause, by simp [querySubdivision, hs, h]⟩
    · exact ⟨.status status, by simp [querySubdivision, hs]⟩
  · intro resp h hc
    by_cases hs : status = 200
    · exact ⟨.api resp.Error.Code resp.Error.Message, by simp [querySubdivision, hs, h, hc]⟩
    · exact ⟨.status status, by simp [querySubdivision, hs]⟩
  · intro resp hs h hc
    refine ⟨resp.Results.map (fun result => fixAttributes result.Attributes), ?_, ?_, ?_⟩
    · simp [querySubdivision, hs, h, not_lt.mpr hc]
    · simp
    · intro i hi hr
      simp only [List.get_eq_getElem, List.getElem_map]
      exact ⟨fun key => fixAttributes_mem _ key, fun key => fixAttributes_lookup _ key⟩

/-- C5 at a concrete response: a status of 200 and a body that decodes to one result with
the attribute STNAME " MAIN   ST " and error code 0 give one record. -/
theorem querySubdivision_result_witness :
    ∃ records,
      querySubdivision
          (fun _ => .ok ⟨[⟨(∅ : Record).insert "STNAME" " MAIN   ST "⟩], ⟨0, ""⟩⟩)
          (.ok ⟨200, .ok []⟩) = .ok records ∧
        records.length = 1 ∧
        records.map (fun r => r.lookup "STNAME") = [some "MAIN ST"] := by
  obtain ⟨records, h1, h2, _⟩ := (querySubdivision_result
    (fun _ => .ok ⟨[⟨(∅ : Record).insert "STNAME" " MAIN   ST "⟩], ⟨0, ""⟩⟩) 200 []).2.2.2
    ⟨[⟨(∅ : Record).insert "STNAME" " MAIN   ST "⟩], ⟨0, ""⟩⟩ rfl rfl (by decide)
  refine ⟨records, h1, h2, ?_⟩
  have h3 : records = [fixAttributes ((∅ : Record).insert "STNAME" " MAIN   ST ")] := by
    have := h1
    simp [querySubdivision] at this
    exact this.symm
  rw [h3]
  decide

/-! ## The output file -/

theorem writeOutputFile_existing (prior rendered : List Nat) :
    writeOutputFile (some prior) rendered = some (rendered ++ prior.drop rendered.length) := by
  simp [writeOutputFile, os.OpenFile, os.writeAt]

/-- C9, the code at a failing input. The file holds the CSV of an earlier run
with two rows, ELM 4 and OAK 7, and the rendered CSV of this run has the row
ELM 4 only: after the run the file still holds both rows, the bytes of the
previous content beyond the length of the new text remaining, because the
file is opened without `os.O_TRUNC`. -/
theorem writeOutputFile_keeps_old_tail :
    writeOutputFile (some (goBytes "STNAME,STNO\nELM,4\nOAK,7\n"))
        (goBytes "STNAME,STNO\nELM,4\n") =
      some (goBytes "STNAME,STNO\nELM,4\nOAK,7\n") ∧
    writeOutputFile (some (goBytes "STNAME,STNO\nELM,4\nOAK,7\n"))
        (goBytes "STNAME,STNO\nELM,4\n") ≠
      some (goBytes "STNAME,STNO\nELM,4\n") := by
  decide

/-! ## The CSV header and rows -/

theorem foldl_insert_true_mem (keys : List String) (acc : AList (fun _ : String => Bool))
    (k : String) :
    k ∈ (keys.foldl (fun fs key => AList.insert key true fs) acc).keys ↔
      k ∈ acc.keys ∨ k ∈ keys := by
  induction keys generalizing acc with
  | nil => simp
  | cons x t ih =>
    simp only [List.foldl_cons, List.mem_cons]
    rw [ih, ← AList.mem_keys, ← AList.mem_keys, AList.mem_insert]
    tauto

theorem csvHeaderFields_foldl_mem (houses : List Record)
    (acc : AList (fun _ : String => Bool)) (k : String) :
    k ∈ (houses.foldl (fun fields (house : Record) =>
        house.keys.foldl (fun fs key => AList.insert key true fs) fields) acc).keys ↔
      k ∈ acc.keys ∨ ∃ house ∈ houses, k ∈ house.keys := by
  induction houses generalizing acc with
  | nil => simp
  | cons r t ih =>
    simp only [List.foldl_cons]
    rw [ih, foldl_insert_true_mem]
    simp only [List.mem_cons, exists_eq_or_imp]
    tauto

theorem csvHeaderFields_mem (houses : List Record) (k : String) :
    k ∈ (csvHeaderFields houses).keys ↔ ∃ house ∈ houses, k ∈ house.keys := by
  unfold csvHeaderFields
  rw [csvHeaderFields_foldl_mem]
  simp

theorem Compare_le_total (a b : String) :
    strings.Compare a b ≤ 0 ∨ strings.Compare b a ≤ 0 := by
  rw [Compare_swap a b]
  omega

theorem Compare_le_trans {a b c : String} (h1 : strings.Compare a b ≤ 0)
    (h2 : strings.Compare b c ≤ 0) : strings.Compare a c ≤ 0 := by
  rcases lt_or_eq_of_le h1 with h1 | h1
  · rcases lt_or_eq_of_le h2 with h2 | h2
    · exact Int.le_of_lt (Compare_lt_trans h1 h2)
    · rw [Compare_eq_zero_iff] at h2
      subst h2
      exact Int.le_of_lt h1
  · rw [Compare_eq_zero_iff] at h1
    subst h1
    exact h2

theorem Strings_perm (x : List String) : (sort.Strings x).Perm x :=
  List.perm_insertionSort _ x

theorem Strings_sorted (x : List String) :
    (sort.Strings x).Pairwise (fun a b => strings.Compare a b ≤ 0) := by
  haveI : IsTotal String (fun a b => strings.Compare a b ≤ 0) := ⟨Compare_le_total⟩
  haveI : IsTrans String (fun a b => strings.Compare a b ≤ 0) :=
    ⟨fun _ _ _ => Compare_le_trans⟩
  exact List.sorted_insertionSort _ x

theorem Strings_strict (x : List String) (hx : x.Nodup) :
    (sort.Strings x).Pairwise (fun a b => strings.Compare a b < 0) := by
  have hn : (sort.Strings x).Nodup := (Strings_perm x).nodup_iff.mpr hx
  have hboth := (Strings_sorted x).and hn
  refine hboth.imp ?_
  intro a b hab
  rcases lt_or_eq_of_le hab.1 with h | h
  · exact h
  · exact absurd (Compare_eq_zero_iff.mp h) hab.2

/-- C3. The CSV header built in main is strictly increasing in byte order
(sorted, without duplicates), and a string is in the header exactly when it
is a key of at least one record. For the records with the single entries
A:"1" and B:"2" the header is A, B; for no record at all it is empty. -/
theorem csvHeader_sorted_union (houses : List Record) :
    (csvHeader houses).Pairwise (fun a b => strings.Compare a b < 0) ∧
    (∀ key, key ∈ csvHeader houses ↔ ∃ house ∈ houses, key ∈ house.keys) ∧
    csvHeader [(∅ : Record).insert "A" "1", (∅ : Record).insert "B" "2"] = ["A", "B"] ∧
    csvHeader [] = [] := by
  refine ⟨Strings_strict _ (AList.keys_nodup _), ?_, by decide, by decide⟩
  intro key
  unfold csvHeader
  rw [(Strings_perm _).mem_iff, csvHeaderFields_mem]

/-- C4. The table built in main from N records has N+1 rows: the header,
then one row per record in the order of the records; the row of a record has
as many fields as the header, the field under a header key being the value
of the record for that key, or the empty string when the record lacks the
key. For the records A:"1" and B:"2" the rows are "1","" and "","2". -/
theorem csvData_rows (houses : List Record) :
    (csvData houses).length = houses.length + 1 ∧
    (csvData houses)[0]? = some (csvHeader houses) ∧
    (∀ i (hi : i < houses.length), ∃ row, (csvData houses)[i + 1]? = some row ∧
      row.length = (csvHeader houses).length ∧
      ∀ j (hj : j < (csvHeader houses).length),
        row[j]? = some (match (houses.get ⟨i, hi⟩).lookup ((csvHeader houses).get ⟨j, hj⟩) with
          | some value => value
          | none => "")) ∧
    csvData [(∅ : Record).insert "A" "1", (∅ : Record).insert "B" "2"] =
      [["A", "B"], ["1", ""], ["", "2"]] := by
  refine ⟨by simp [csvData], by simp [csvData], ?_, by decide⟩
  intro i hi
  refine ⟨houseLine (csvHeader houses) (houses.get ⟨i, hi⟩), ?_, by simp [houseLine], ?_⟩
  · simp [csvData, hi]
  · intro j hj
    simp only [houseLine, List.getElem?_map, List.get_eq_getElem]
    rw [List.getElem?_eq_getElem hj]
    simp only [Option.map_some', Record.get]
    cases AList.lookup (csvHeader houses)[j] houses[i] <;> rfl

/-! ## fixValue -/

theorem fieldsLoop_eq (f : Char → Bool) (s : List Char) (start : Option (List Char))
    (spans : List (List Char)) (hstart : ∀ cur, start = some cur → cur ≠ []) :
    strings.fieldsLoop f s start spans =
      spans ++ ((s.splitOnP f).modifyHead (fun t => start.getD [] ++ t)).filter
        (fun run => decide (run ≠ [])) := by
  induction s generalizing start spans with
  | nil =>
    cases start with
    | none => simp [strings.fieldsLoop, List.modifyHead]
    | some cur => simp [strings.fieldsLoop, List.modifyHead, hstart cur rfl]
  | cons c cs ih =>
    rw [List.splitOnP_cons]
    by_cases hc : f c = true
    · cases start with
      | none =>
        simp only [strings.fieldsLoop, hc, if_true]
        rw [ih none spans (by simp)]
        simp [List.modifyHead]
        congr 1
        cases List.splitOnP f cs <;> simp [List.modifyHead]
      | some cur =>
        simp only [strings.fieldsLoop, hc, if_true]
        rw [ih none (spans ++ [cur]) (by simp)]
        simp [List.modifyHead, hstart cur rfl]
        congr 1
        cases List.splitOnP f cs <;> simp [List.modifyHead]
    · cases start with
      | none =>
        simp only [strings.fieldsLoop, hc]
        rw [ih (some [c]) spans (by simp)]
        simp [List.modifyHead_modifyHead]
        congr 1
      | some cur =>
        simp only [strings.fieldsLoop, hc]
        rw [ih (some (cur ++ [c])) spans (by simp)]
        simp [List.modifyHead_modifyHead]
        rfl

theorem Fields_eq_nonSpaceRuns (s : String) : strings.Fields s = nonSpaceRuns s := by
  unfold strings.Fields nonSpaceRuns
  rw [fieldsLoop_eq _ _ _ _ (by simp)]
  simp only [List.nil_append, Option.getD_none]
  congr 2
  cases List.splitOnP unicode.IsSpace s.data <;> simp [List.modifyHead]

theorem splitOnP_piece_free {p : Char → Bool} (l : List Char) :
    ∀ piece ∈ l.splitOnP p, ∀ c ∈ piece, p c = false := by
  induction l with
  | nil => simp
  | cons x xs ih =>
    rw [List.splitOnP_cons]
    by_cases hx : p x = true
    · simp only [hx, if_true, List.mem_cons]
      rintro piece (rfl | hp)
      · simp
      · exact ih piece hp
    · simp only [hx]
      cases hsp : List.splitOnP p xs with
      | nil => simp [List.modifyHead]
      | cons h t =>
        rw [hsp] at ih
        simp only [List.modifyHead, List.mem_cons, Bool.false_eq_true, if_false]
        rintro piece (rfl | hp)
        · intro c hcm
          rcases List.mem_cons.mp hcm with rfl | hcm
          · simpa using hx
          · exact ih h (List.mem_cons_self _ _) c hcm
        · exact ih piece (List.mem_cons_of_mem _ hp)

theorem splitOnP_flatten {p : Char → Bool} (l : List Char) :
    (l.splitOnP p).flatten = l.filter (fun c => !p c) := by
  induction l with
  | nil => simp
  | cons x xs ih =>
    rw [List.splitOnP_cons]
    by_cases hx : p x = true
    · simp [hx, ih]
    · simp only [hx, Bool.false_eq_true, if_false]
      cases hsp : List.splitOnP p xs with
      | nil => exact absurd hsp (List.splitOnP_ne_nil _ _)
      | cons h t =>
        rw [hsp] at ih
        simp only [List.modifyHead, List.flatten_cons, List.cons_append]
        rw [List.filter_cons]
        simp only [hx, Bool.not_false, if_true]
        rw [← ih]
        simp

theorem flatten_filter_nonempty (ls : List (List Char)) :
    (ls.filter (fun run => decide (run ≠ []))).flatten = ls.flatten := by
  induction ls with
  | nil => rfl
  | cons h t ih =>
    cases h with
    | nil => simpa using ih
    | cons a r => simpa [List.filter_cons] using ih

/-- A list of fields: none is empty and none holds a whitespace character. -/
theorem nonSpaceRuns_good (s : String) :
    ∀ run ∈ nonSpaceRuns s, run ≠ "" ∧ ∀ c ∈ run.data, unicode.IsSpace c = false := by
  intro run hrun
  unfold nonSpaceRuns at hrun
  rw [List.mem_map] at hrun
  obtain ⟨piece, hpiece, rfl⟩ := hrun
  rw [List.mem_filter] at hpiece
  refine ⟨?_, fun c hc => splitOnP_piece_free _ piece hpiece.1 c hc⟩
  intro h
  have : piece = [] := by
    have := congrArg String.data h
    simpa using this
  simp [this] at hpiece

theorem nonSpaceRuns_flatten (s : String) :
    ((nonSpaceRuns s).map String.data).flatten =
      s.data.filter (fun c => !unicode.IsSpace c) := by
  unfold nonSpaceRuns
  rw [List.map_map]
  have : (String.data ∘ String.mk) = id := by funext l; rfl
  rw [this, List.map_id, flatten_filter_nonempty, splitOnP_flatten]

theorem isSpace_space : unicode.IsSpace (Char.ofNat 32) = true := by decide

theorem space_data : (" " : String).data = [Char.ofNat 32] := rfl

theorem chain_of_free (l : List Char) (h : ∀ c ∈ l, unicode.IsSpace c = false) :
    List.Chain' (fun a b => ¬ (unicode.IsSpace a = true ∧ unicode.IsSpace b = true)) l := by
  induction l with
  | nil => exact List.chain'_nil
  | cons x xs ih =>
    rw [List.chain'_cons']
    refine ⟨?_, ih (fun c hc => h c (List.mem_cons_of_mem _ hc))⟩
    intro y _
    simp [h x (List.mem_cons_self _ _)]

/-- The text joined from a list of fields: its whitespace is single U+0020
characters between fields, and splitting it gives the fields back. -/
theorem join_good (runs : List String)
    (hgood : ∀ run ∈ runs, run ≠ "" ∧ ∀ c ∈ run.data, unicode.IsSpace c = false) :
    (∀ c ∈ (strings.Join runs " ").data, unicode.IsSpace c = true → c = Char.ofNat 32) ∧
    (∀ c, (strings.Join runs " ").data.head? = some c → unicode.IsSpace c = false) ∧
    (∀ c, (strings.Join runs " ").data.getLast? = some c → unicode.IsSpace c = false) ∧
    List.Chain' (fun a b => ¬ (unicode.IsSpace a = true ∧ unicode.IsSpace b = true))
      (strings.Join runs " ").data ∧
    (runs ≠ [] → (strings.Join runs " ").data ≠ [] ∧
      (strings.Join runs " ").data.splitOnP unicode.IsSpace = runs.map String.data) := by
  induction runs with
  | nil =>
    refine ⟨?_, ?_, ?_, ?_, ?_⟩ <;> simp [strings.Join]
  | cons a rest ih =>
    have ha := hgood a (List.mem_cons_self _ _)
    have hane : a.data ≠ [] := by
      intro h
      apply ha.1
      cases a
      simp_all
    have hrest := ih (fun run hr => hgood run (List.mem_cons_of_mem _ hr))
    cases rest with
    | nil =>
      simp only [strings.Join]
      refine ⟨?_, ?_, ?_, chain_of_free _ ha.2, ?_⟩
      · intro c hc hsp
        rw [ha.2 c hc] at hsp
        exact absurd hsp (by simp)
      · intro c hc
        exact ha.2 c (List.mem_of_mem_head? hc)
      · intro c hc
        exact ha.2 c (List.mem_of_mem_getLast? hc)
      · intro _
        refine ⟨hane, ?_⟩
        rw [List.splitOnP_eq_single]
        · rfl
        · intro x hx
          simp [ha.2 x hx]
    | cons b more =>
      obtain ⟨h1, h2, h3, h4, h5⟩ := hrest
      obtain ⟨h5a, h5b⟩ := h5 (by simp)
      have hdata : (strings.Join (a :: b :: more) " ").data =
          a.data ++ Char.ofNat 32 :: (strings.Join (b :: more) " ").data := by
        simp only [strings.Join, String.data_append, space_data]
        simp
      rw [hdata]
      obtain ⟨x, xs, hxs⟩ := List.exists_cons_of_ne_nil h5a
      refine ⟨?_, ?_, ?_, ?_, ?_⟩
      · intro c hc hsp
        rcases List.mem_append.mp hc with hc | hc
        · rw [ha.2 c hc] at hsp
          exact absurd hsp (by simp)
        · rcases List.mem_cons.mp hc with hc | hc
          · exact hc
          · exact h1 c hc hsp
      · intro c hc
        obtain ⟨y, ys, hys⟩ := List.exists_cons_of_ne_nil hane
        rw [hys] at hc
        simp at hc
        subst hc
        exact ha.2 y (by rw [hys]; exact List.mem_cons_self _ _)
      · intro c hc
        apply h3 c
        rw [hxs] at hc ⊢
        rw [List.getLast?_append_of_ne_nil _ (by simp)] at hc
        rw [List.getLast?_cons_cons] at hc
        exact hc
      · rw [List.chain'_append]
        refine ⟨chain_of_free _ ha.2, ?_, ?_⟩
        · rw [List.chain'_cons']
          refine ⟨?_, h4⟩
          intro y hy
          have := h2 y hy
          simp [this]
        · intro u hu v hv
          have := ha.2 u (List.mem_of_mem_getLast? hu)
          simp [this]
      · intro _
        refine ⟨by simp, ?_⟩
        rw [List.splitOnP_first _ _ (fun y hy => by simp [ha.2 y hy]) _ isSpace_space, h5b]
        rfl

theorem trim_join_good (runs : List String)
    (hgood : ∀ run ∈ runs, run ≠ "" ∧ ∀ c ∈ run.data, unicode.IsSpace c = false) :
    strings.Trim (strings.Join runs " ") " " = strings.Join runs " " := by
  obtain ⟨_, h2, h3, _, _⟩ := join_good runs hgood
  unfold strings.Trim
  have hd : (strings.Join runs " ").data.dropWhile
      (fun c => decide (c ∈ (" " : String).data)) = (strings.Join runs " ").data := by
    cases hj : (strings.Join runs " ").data with
    | nil => rfl
    | cons x xs =>
      have hx := h2 x (by rw [hj]; rfl)
      rw [List.dropWhile_cons_of_neg]
      simp only [space_data, List.mem_singleton, decide_eq_true_eq]
      intro hmem
      rw [hmem, isSpace_space] at hx
      exact absurd hx (by simp)
  rw [hd]
  have hr : (strings.Join runs " ").data.rdropWhile
      (fun c => decide (c ∈ (" " : String).data)) = (strings.Join runs " ").data := by
    rw [List.rdropWhile_eq_self_iff]
    intro hl
    have := h3 _ (List.getLast?_eq_getLast _ hl)
    intro hmem
    simp only [space_data, List.mem_singleton, decide_eq_true_eq] at hmem
    rw [hmem, isSpace_space] at this
    exact absurd this (by simp)
  rw [hr]

theorem fixValue_eq_join (s : String) :
    fixValue s = strings.Join (nonSpaceRuns s) " " := by
  unfold fixValue
  simp only [Fields_eq_nonSpaceRuns]
  exact trim_join_good _ (nonSpaceRuns_good s)

theorem nonSpaceRuns_join (runs : List String)
    (hgood : ∀ run ∈ runs, run ≠ "" ∧ ∀ c ∈ run.data, unicode.IsSpace c = false) :
    nonSpaceRuns (strings.Join runs " ") = runs := by
  cases hr : runs with
  | nil => simp [strings.Join, nonSpaceRuns]
  | cons a rest =>
    rw [← hr]
    obtain ⟨_, _, _, _, h5⟩ := join_good runs hgood
    obtain ⟨_, h5b⟩ := h5 (by simp [hr])
    unfold nonSpaceRuns
    rw [h5b, List.filter_eq_self.mpr, List.map_map]
    · have : (String.mk ∘ String.data) = id := by funext l; rfl
      rw [this, List.map_id]
    · intro piece hp
      rw [List.mem_map] at hp
      obtain ⟨run, hrun, rfl⟩ := hp
      have := (hgood run hrun).1
      simp only [ne_eq, decide_eq_true_eq]
      intro h
      apply this
      cases run
      simp_all

/-- C7. For every string, fixValue returns its maximal runs of non-whitespace
characters, in order and unchanged, joined by single U+0020 characters: the
runs are non-empty, hold no whitespace and together are the characters of the
string that are not whitespace; the result has no leading or trailing
whitespace, no whitespace other than U+0020 and no two adjacent spaces, and
it is empty when the string is empty or all whitespace. -/
theorem fixValue_normal_form (s : String) :
    fixValue s = strings.Join (nonSpaceRuns s) " " ∧
    (∀ run ∈ nonSpaceRuns s, run ≠ "" ∧ ∀ c ∈ run.data, unicode.IsSpace c = false) ∧
    ((nonSpaceRuns s).map String.data).flatten =
      s.data.filter (fun c => !unicode.IsSpace c) ∧
    (∀ c, (fixValue s).data.head? = some c → unicode.IsSpace c = false) ∧
    (∀ c, (fixValue s).data.getLast? = some c → unicode.IsSpace c = false) ∧
    (∀ c ∈ (fixValue s).data, unicode.IsSpace c = true → c = Char.ofNat 32) ∧
    List.Chain' (fun a b => ¬ (a = Char.ofNat 32 ∧ b = Char.ofNat 32)) (fixValue s).data ∧
    ((∀ c ∈ s.data, unicode.IsSpace c = true) → fixValue s = "") ∧
    fixValue "  12 \t MAIN\n\n ST  " = "12 MAIN ST" := by
  have hgood := nonSpaceRuns_good s
  obtain ⟨h1, h2, h3, h4, _⟩ := join_good (nonSpaceRuns s) hgood
  rw [fixValue_eq_join]
  refine ⟨rfl, hgood, nonSpaceRuns_flatten s, h2, h3, h1, ?_, ?_, by decide⟩
  · refine h4.imp ?_
    rintro a b hab ⟨rfl, rfl⟩
    exact hab ⟨isSpace_space, isSpace_space⟩
  · intro hall
    have hflat := nonSpaceRuns_flatten s
    have hnil : s.data.filter (fun c => !unicode.IsSpace c) = [] := by
      rw [List.filter_eq_nil_iff]
      intro c hc
      simp [hall c hc]
    rw [hnil] at hflat
    cases hruns : nonSpaceRuns s with
    | nil => rfl
    | cons a rest =>
      exfalso
      rw [hruns] at hflat hgood
      have ha := (hgood a (List.mem_cons_self _ _)).1
      simp only [List.map_cons, List.flatten_cons, List.append_eq_nil] at hflat
      apply ha
      cases a
      simp_all

/-- C8. Normalisation is idempotent: fixValue of fixValue of a string is
fixValue of the string. -/
theorem fixValue_idempotent (s : String) : fixValue (fixValue s) = fixValue s := by
  rw [fixValue_eq_join s, fixValue_eq_join, nonSpaceRuns_join _ (nonSpaceRuns_good s)]

/-! ## Cells, swaps and rearrangements -/

namespace sort

variable {α : Type} [Inhabited α]

theorem Swap_length (data : List α) (i j : Nat) : (Swap data i j).length = data.length := by
  simp [Swap]

theorem cell_Swap (data : List α) {i j : Nat} (hi : i < data.length) (hj : j < data.length)
    (k : Nat) :
    cell (Swap data i j) k =
      if k = j then cell data i else if k = i then cell data j else cell data k := by
  unfold Swap cell
  simp only [List.getD_eq_getElem?_getD, List.getElem?_set, List.length_set]
  by_cases hkj : k = j
  · subst hkj
    simp [hj]
  · have hjk : ¬ j = k := fun h => hkj h.symm
    by_cases hki : k = i
    · subst hki
      simp [hkj, hjk, hi]
    · have hik : ¬ i = k := fun h => hki h.symm
      simp [hkj, hjk, hki, hik]

theorem PermOn.refl (data : List α) (a b : Nat) : PermOn data data a b :=
  ⟨rfl, Equiv.refl _, fun _ => rfl, fun _ _ => rfl⟩

theorem PermOn.trans {d1 d2 d3 : List α} {a b : Nat} (h12 : PermOn d1 d2 a b)
    (h23 : PermOn d2 d3 a b) : PermOn d1 d3 a b := by
  obtain ⟨hl1, σ1, hc1, hf1⟩ := h12
  obtain ⟨hl2, σ2, hc2, hf2⟩ := h23
  refine ⟨hl2.trans hl1, σ2.trans σ1, ?_, ?_⟩
  · intro k
    rw [hc2, hc1]
    rfl
  · intro k hk
    show σ1 (σ2 k) = k
    rw [hf2 k hk, hf1 k hk]

theorem PermOn.mono {d1 d2 : List α} {a b a2 b2 : Nat} (h : PermOn d1 d2 a b)
    (ha : a2 ≤ a) (hb : b ≤ b2) : PermOn d1 d2 a2 b2 := by
  obtain ⟨hl, σ, hc, hf⟩ := h
  exact ⟨hl, σ, hc, fun k hk => hf k (by omega)⟩

theorem PermOn.length {d1 d2 : List α} {a b : Nat} (h : PermOn d1 d2 a b) :
    d2.length = d1.length := h.1

theorem PermOn.outside {d1 d2 : List α} {a b : Nat} (h : PermOn d1 d2 a b) (k : Nat)
    (hk : k < a ∨ b ≤ k) : cell d2 k = cell d1 k := by
  obtain ⟨_, σ, hc, hf⟩ := h
  rw [hc, hf k hk]

theorem PermOn.inside {d1 d2 : List α} {a b : Nat} (h : PermOn d1 d2 a b) (k : Nat)
    (hka : a ≤ k) (hkb : k < b) : ∃ k2, a ≤ k2 ∧ k2 < b ∧ cell d2 k = cell d1 k2 := by
  obtain ⟨_, σ, hc, hf⟩ := h
  refine ⟨σ k, ?_, ?_, hc k⟩
  · by_contra hlt
    have h1 := hf (σ k) (Or.inl (by omega))
    have h2 := σ.injective h1
    omega
  · by_contra hge
    have h1 := hf (σ k) (Or.inr (by omega))
    have h2 := σ.injective h1
    omega

theorem PermOn.swap (data : List α) {i j a b : Nat} (hi : i < data.length)
    (hj : j < data.length) (hia : a ≤ i) (hib : i < b) (hja : a ≤ j) (hjb : j < b) :
    PermOn data (Swap data i j) a b := by
  refine ⟨Swap_length data i j, Equiv.swap i j, ?_, ?_⟩
  · intro k
    rw [cell_Swap data hi hj]
    by_cases hkj : k = j
    · subst hkj
      simp
    · by_cases hki : k = i
      · subst hki
        simp [hkj]
      · simp [hkj, hki, Equiv.swap_apply_of_ne_of_ne hki hkj]
  · intro k hk
    exact Equiv.swap_apply_of_ne_of_ne (by omega) (by omega)

theorem PermOn.allS {d1 d2 : List α} {a b : Nat} (h : PermOn d1 d2 a b) {S : α → Prop}
    {u v : Nat} (hS : ∀ k, u ≤ k → k < v → S (cell d1 k)) (hlo : u ≤ a) (hhi : b ≤ v) :
    ∀ k, u ≤ k → k < v → S (cell d2 k) := by
  intro k hk1 hk2
  by_cases hin : a ≤ k ∧ k < b
  · obtain ⟨k2, h1, h2, h3⟩ := h.inside k hin.1 hin.2
    rw [h3]
    exact hS k2 (by omega) (by omega)
  · rw [h.outside k (by omega)]
    exact hS k hk1 hk2

/-- A rearrangement of the cells `a ≤ k < b` of a whole slice is a permutation of it. -/
theorem PermOn.perm {d1 d2 : List α} {a b : Nat} (h : PermOn d1 d2 a b)
    (hb : b ≤ d1.length) : d2.Perm d1 := by
  obtain ⟨hl, σ, hc, hf⟩ := h
  have hmaps : ∀ k, k < d1.length → σ k < d1.length := by
    intro k hk
    by_contra hge
    have h1 := hf (σ k) (Or.inr (by omega))
    have h2 := σ.injective h1
    omega
  have e1 : d1 = (List.range d1.length).map (cell d1) := by
    apply List.ext_getElem
    · simp
    · intro n h1 h2
      simp [cell, List.getD_eq_getElem?_getD, List.getElem?_eq_getElem h1]
  have e2 : d2 = ((List.range d1.length).map σ).map (cell d1) := by
    apply List.ext_getElem
    · simp [hl]
    · intro n h1 h2
      simp only [List.map_map, List.getElem_map, List.getElem_range, Function.comp]
      rw [← hc]
      simp [cell, List.getD_eq_getElem?_getD, List.getElem?_eq_getElem h1]
  rw [e2]
  conv_rhs => rw [e1]
  apply List.Perm.map
  apply (List.perm_ext_iff_of_nodup ?_ (List.nodup_range _)).mpr
  · intro x
    simp only [List.mem_map, List.mem_range]
    constructor
    · rintro ⟨k, hk, rfl⟩
      exact hmaps k hk
    · intro hx
      refine ⟨σ.symm x, ?_, by simp⟩
      by_contra hge
      have h1 := hf (σ.symm x) (Or.inr (by omega))
      simp at h1
      omega
  · exact (List.nodup_range _).map σ.injective

end sort

/-! ## Insertion sort of a block -/

namespace sort

variable {α : Type} {less : α → α → Bool} {S : α → Prop}

theorem WeakOrderOn.asymm (W : WeakOrderOn less S) {x y : α} (hx : S x) (hy : S y)
    (h : less x y = true) : less y x = false := by
  by_contra hc
  have hc2 : less y x = true := by simpa using hc
  have := W.trans x y x hx hy hx h hc2
  rw [W.irrefl x hx] at this
  exact absurd this (by simp)

theorem WeakOrderOn.le_trans (W : WeakOrderOn less S) {x y z : α} (hx : S x) (hy : S y)
    (hz : S z) (h1 : less y x = false) (h2 : less z y = false) : less z x = false :=
  W.incomp z y x hz hy hx h2 h1

theorem WeakOrderOn.lt_of_lt_of_le (W : WeakOrderOn less S) {x y z : α} (hx : S x)
    (hy : S y) (hz : S z) (h1 : less x y = true) (h2 : less z y = false) :
    less x z = true := by
  by_contra hc
  have hc2 : less x z = false := by simpa using hc
  have := W.incomp x z y hx hz hy hc2 h2
  rw [h1] at this
  exact absurd this (by simp)

theorem WeakOrderOn.lt_of_le_of_lt (W : WeakOrderOn less S) {x y z : α} (hx : S x)
    (hy : S y) (hz : S z) (h1 : less y x = false) (h2 : less y z = true) :
    less x z = true := by
  by_contra hc
  have hc2 : less x z = false := by simpa using hc
  have := W.incomp y x z hy hx hz h1 hc2
  rw [h2] at this
  exact absurd this (by simp)

variable [Inhabited α]

theorem insertionInner_spec (W : WeakOrderOn less S) (a i : Nat) :
    ∀ (j : Nat) (data : List α), a ≤ j → j ≤ i → i < data.length →
      (∀ k, a ≤ k → k ≤ i → S (cell data k)) →
      SortedOn less data a j → SortedOn less data j (i + 1) →
      (∀ x y, a ≤ x → x < j → j < y → y ≤ i → less (cell data y) (cell data x) = false) →
      PermOn data (insertionInner less a j data) a (i + 1) ∧
        SortedOn less (insertionInner less a j data) a (i + 1) := by
  intro j
  induction j with
  | zero =>
    intro data ha _ _ _ _ h2 _
    have : a = 0 := by omega
    subst this
    exact ⟨PermOn.refl _ _ _, h2⟩
  | succ j ih =>
    intro data ha hji hi hS h1 h2 h3
    simp only [insertionInner]
    by_cases hc : j + 1 > a ∧ Less less data (j + 1) j = true
    · rw [if_pos hc]
      obtain ⟨hja, hlt⟩ := hc
      unfold Less at hlt
      have hj1 : j + 1 < data.length := by omega
      have hj0 : j < data.length := by omega
      have hperm : PermOn data (Swap data (j + 1) j) a (i + 1) :=
        PermOn.swap data hj1 hj0 (by omega) (by omega) (by omega) (by omega)
      have hcell : ∀ k, cell (Swap data (j + 1) j) k =
          if k = j then cell data (j + 1) else if k = j + 1 then cell data j
          else cell data k := cell_Swap data hj1 hj0
      have hS2 : ∀ k, a ≤ k → k ≤ i → S (cell (Swap data (j + 1) j) k) := by
        intro k hk1 hk2
        exact hperm.allS (u := a) (v := i + 1) (fun k h1 h2 => hS k h1 (by omega))
          (le_refl _) (le_refl _) k hk1 (by omega)
      have hasym : less (cell data j) (cell data (j + 1)) = false :=
        W.asymm (hS _ (by omega) (by omega)) (hS _ (by omega) (by omega)) hlt
      have g1 : SortedOn less (Swap data (j + 1) j) a j := by
        intro x y hx hxy hy
        have ex : cell (Swap data (j + 1) j) x = cell data x := by
          rw [hcell]; split_ifs <;> first | rfl | (exfalso; omega)
        have ey : cell (Swap data (j + 1) j) y = cell data y := by
          rw [hcell]; split_ifs <;> first | rfl | (exfalso; omega)
        rw [ex, ey]
        exact h1 x y hx hxy (by omega)
      have g2 : SortedOn less (Swap data (j + 1) j) j (i + 1) := by
        intro x y hx hxy hy
        by_cases hxj : x = j
        · have ex : cell (Swap data (j + 1) j) x = cell data (j + 1) := by
            rw [hcell]; split_ifs <;> first | rfl | (exfalso; omega)
          by_cases hy1 : y = j + 1
          · have ey : cell (Swap data (j + 1) j) y = cell data j := by
              rw [hcell]; split_ifs <;> first | rfl | (exfalso; omega)
            rw [ex, ey]
            exact hasym
          · have ey : cell (Swap data (j + 1) j) y = cell data y := by
              rw [hcell]; split_ifs <;> first | rfl | (exfalso; omega)
            rw [ex, ey]
            exact h2 (j + 1) y (le_refl _) (by omega) hy
        · have ey : cell (Swap data (j + 1) j) y = cell data y := by
            rw [hcell]; split_ifs <;> first | rfl | (exfalso; omega)
          by_cases hx1 : x = j + 1
          · have ex : cell (Swap data (j + 1) j) x = cell data j := by
              rw [hcell]; split_ifs <;> first | rfl | (exfalso; omega)
            rw [ex, ey]
            exact h3 j y (by omega) (by omega) (by omega) (by omega)
          · have ex : cell (Swap data (j + 1) j) x = cell data x := by
              rw [hcell]; split_ifs <;> first | rfl | (exfalso; omega)
            rw [ex, ey]
            exact h2 x y (by omega) hxy hy
      have g3 : ∀ x y, a ≤ x → x < j → j < y → y ≤ i →
          less (cell (Swap data (j + 1) j) y) (cell (Swap data (j + 1) j) x) = false := by
        intro x y hx hxj hjy hyi
        have ex : cell (Swap data (j + 1) j) x = cell data x := by
          rw [hcell]; split_ifs <;> first | rfl | (exfalso; omega)
        by_cases hy1 : y = j + 1
        · have ey : cell (Swap data (j + 1) j) y = cell data j := by
            rw [hcell]; split_ifs <;> first | rfl | (exfalso; omega)
          rw [ex, ey]
          exact h1 x j hx hxj (by omega)
        · have ey : cell (Swap data (j + 1) j) y = cell data y := by
            rw [hcell]; split_ifs <;> first | rfl | (exfalso; omega)
          rw [ex, ey]
          exact h3 x y hx (by omega) (by omega) hyi
      obtain ⟨hp, hs⟩ := ih (Swap data (j + 1) j) (by omega) (by omega)
        (by rw [Swap_length]; exact hi) hS2 g1 g2 g3
      exact ⟨hperm.trans hp, hs⟩
    · rw [if_neg hc]
      refine ⟨PermOn.refl _ _ _, ?_⟩
      by_cases haj : a = j + 1
      · subst haj
        exact h2
      · have hle : less (cell data (j + 1)) (cell data j) = false := by
          by_contra hne
          apply hc
          refine ⟨by omega, ?_⟩
          unfold Less
          simpa using hne
        intro x y hx hxy hy
        by_cases hxj : x < j + 1
        · by_cases hyj : y < j + 1
          · exact h1 x y hx hxy hyj
          · by_cases hy1 : y = j + 1
            · subst hy1
              by_cases hxe : x = j
              · subst hxe
                exact hle
              · exact W.le_trans (hS _ hx (by omega)) (hS _ (by omega) (by omega))
                  (hS _ (by omega) (by omega)) (h1 x j hx (by omega) (by omega)) hle
            · exact h3 x y hx hxj (by omega) (by omega)
        · exact h2 x y (by omega) hxy hy

theorem insertionOuter_spec (W : WeakOrderOn less S) (a : Nat) :
    ∀ (cnt i : Nat) (data : List α), a ≤ i → i + cnt ≤ data.length →
      (∀ k, a ≤ k → k < i + cnt → S (cell data k)) →
      SortedOn less data a i →
      PermOn data (insertionOuter less a cnt i data) a (i + cnt) ∧
        SortedOn less (insertionOuter less a cnt i data) a (i + cnt) := by
  intro cnt
  induction cnt with
  | zero =>
    intro i data _ _ _ h
    exact ⟨PermOn.refl _ _ _, h⟩
  | succ cnt ih =>
    intro i data hai hlen hS hsorted
    simp only [insertionOuter]
    obtain ⟨hp, hs⟩ := insertionInner_spec W a i i data hai (le_refl _) (by omega)
      (fun k h1 h2 => hS k h1 (by omega)) hsorted
      (fun x y hx hxy hy => by omega) (fun x y _ _ h1 h2 => by omega)
    have hp2 : PermOn data (insertionInner less a i data) a (i + (cnt + 1)) :=
      hp.mono (le_refl _) (by omega)
    obtain ⟨hp3, hs3⟩ := ih (i + 1) (insertionInner less a i data) (by omega)
      (by rw [hp.length]; omega)
      (fun k h1 h2 => hp2.allS hS (le_refl _) (le_refl _) k h1 (by omega)) hs
    have e : i + 1 + cnt = i + (cnt + 1) := by omega
    rw [e] at hp3 hs3
    exact ⟨hp2.trans hp3, hs3⟩

theorem insertionSort_func_spec (W : WeakOrderOn less S) (data : List α) (a b : Nat)
    (hab : a ≤ b) (hb : b ≤ data.length) (hS : ∀ k, a ≤ k → k < b → S (cell data k)) :
    PermOn data (insertionSort_func less data a b) a b ∧
      SortedOn less (insertionSort_func less data a b) a b := by
  unfold insertionSort_func
  by_cases h : b ≤ a + 1
  · have : b - (a + 1) = 0 := by omega
    rw [this]
    exact ⟨PermOn.refl _ _ _, fun x y _ _ _ => by omega⟩
  · have e : a + 1 + (b - (a + 1)) = b := by omega
    have := insertionOuter_spec W a (b - (a + 1)) (a + 1) data (by omega) (by omega)
      (fun k h1 h2 => hS k h1 (by omega)) (fun x y _ _ _ => by omega)
    rw [e] at this
    exact this

end sort

/-! ## The loops of symMerge: binary search, shifts, block exchange -/

namespace sort

theorem searchLoop_spec (cond : Nat → Bool) :
    ∀ (fuel i j : Nat), i ≤ j → j - i ≤ fuel →
      (∀ c c2, i ≤ c → c ≤ c2 → c2 < j → cond c2 = true → cond c = true) →
      i ≤ searchLoop cond fuel i j ∧ searchLoop cond fuel i j ≤ j ∧
        (∀ c, i ≤ c → c < searchLoop cond fuel i j → cond c = true) ∧
        (∀ c, searchLoop cond fuel i j ≤ c → c < j → cond c = false) := by
  intro fuel
  induction fuel with
  | zero =>
    intro i j hij hfuel _
    simp only [searchLoop]
    exact ⟨le_refl _, hij, fun c h1 h2 => by omega, fun c h1 h2 => by omega⟩
  | succ fuel ih =>
    intro i j hij hfuel hmono
    simp only [searchLoop]
    by_cases hlt : i < j
    · rw [if_pos hlt]
      have hh1 : i ≤ (i + j) / 2 := by omega
      have hh2 : (i + j) / 2 < j := by omega
      by_cases hc : cond ((i + j) / 2) = true
      · rw [if_pos hc]
        obtain ⟨r1, r2, r3, r4⟩ := ih ((i + j) / 2 + 1) j (by omega) (by omega)
          (fun c c2 h1 h2 h3 h4 => hmono c c2 (by omega) h2 h3 h4)
        refine ⟨by omega, r2, ?_, r4⟩
        intro c h1 h2
        by_cases hch : c ≤ (i + j) / 2
        · exact hmono c _ h1 hch hh2 hc
        · exact r3 c (by omega) h2
      · rw [if_neg hc]
        obtain ⟨r1, r2, r3, r4⟩ := ih i ((i + j) / 2) hh1 (by omega)
          (fun c c2 h1 h2 h3 h4 => hmono c c2 h1 h2 (by omega) h4)
        refine ⟨r1, by omega, r3, ?_⟩
        intro c h1 h2
        by_cases hch : c < (i + j) / 2
        · exact r4 c h1 hch
        · by_contra hcc
          apply hc
          exact hmono _ c hh1 (by omega) h2 (by simpa using hcc)
    · rw [if_neg hlt]
      exact ⟨le_refl _, hij, fun c h1 h2 => by omega, fun c h1 h2 => by omega⟩

variable {α : Type} [Inhabited α]

theorem swapUp_spec :
    ∀ (cnt k : Nat) (data : List α), k + cnt < data.length →
      PermOn data (swapUp cnt k data) k (k + cnt + 1) ∧
        ∀ x, cell (swapUp cnt k data) x =
          if k ≤ x ∧ x < k + cnt then cell data (x + 1)
          else if x = k + cnt then cell data k else cell data x := by
  intro cnt
  induction cnt with
  | zero =>
    intro k data _
    refine ⟨PermOn.refl _ _ _, ?_⟩
    intro x
    simp only [swapUp]
    split_ifs with h1 h2
    · exfalso; omega
    · rw [h2]; rfl
    · rfl
  | succ cnt ih =>
    intro k data hlen
    simp only [swapUp]
    have hk : k < data.length := by omega
    have hk1 : k + 1 < data.length := by omega
    obtain ⟨hp, hc⟩ := ih (k + 1) (Swap data k (k + 1)) (by rw [Swap_length]; omega)
    have hsw : PermOn data (Swap data k (k + 1)) k (k + (cnt + 1) + 1) :=
      PermOn.swap data hk hk1 (by omega) (by omega) (by omega) (by omega)
    refine ⟨hsw.trans (hp.mono (by omega) (by omega)), ?_⟩
    intro x
    rw [hc x, cell_Swap data hk hk1, cell_Swap data hk hk1, cell_Swap data hk hk1]
    split_ifs <;> first | rfl | (exfalso; omega) | (congr 1; omega)

theorem swapDown_spec :
    ∀ (cnt k : Nat) (data : List α), cnt ≤ k → k < data.length →
      PermOn data (swapDown cnt k data) (k - cnt) (k + 1) ∧
        ∀ x, cell (swapDown cnt k data) x =
          if k - cnt < x ∧ x ≤ k then cell data (x - 1)
          else if x = k - cnt then cell data k else cell data x := by
  intro cnt
  induction cnt with
  | zero =>
    intro k data _ _
    refine ⟨PermOn.refl _ _ _, ?_⟩
    intro x
    simp only [swapDown]
    split_ifs with h1 h2
    · exfalso; omega
    · rw [h2]; rfl
    · rfl
  | succ cnt ih =>
    intro k data hcnt hlen
    simp only [swapDown]
    have hk1 : k - 1 < data.length := by omega
    obtain ⟨hp, hc⟩ := ih (k - 1) (Swap data k (k - 1)) (by omega)
      (by rw [Swap_length]; omega)
    have hsw : PermOn data (Swap data k (k - 1)) (k - (cnt + 1)) (k + 1) :=
      PermOn.swap data hlen hk1 (by omega) (by omega) (by omega) (by omega)
    refine ⟨hsw.trans (hp.mono (by omega) (by omega)), ?_⟩
    intro x
    rw [hc x, cell_Swap data hlen hk1, cell_Swap data hlen hk1, cell_Swap data hlen hk1]
    split_ifs <;> first | rfl | (exfalso; omega) | (congr 1; omega)

theorem swapRange_func_spec (data : List α) (a b : Nat) :
    ∀ (n : Nat), a + n ≤ b → b + n ≤ data.length →
      PermOn data (swapRange_func data a b n) a (b + n) ∧
        ∀ x, cell (swapRange_func data a b n) x =
          if a ≤ x ∧ x < a + n then cell data (x + (b - a))
          else if b ≤ x ∧ x < b + n then cell data (x - (b - a)) else cell data x := by
  intro n
  induction n with
  | zero =>
    intro _ _
    refine ⟨PermOn.refl _ _ _, ?_⟩
    intro x
    simp only [swapRange_func]
    split_ifs <;> first | rfl | (exfalso; omega)
  | succ n ih =>
    intro h1 h2
    obtain ⟨hp, hc⟩ := ih (by omega) (by omega)
    simp only [swapRange_func]
    have hl := hp.length
    have ha : a + n < (swapRange_func data a b n).length := by rw [hl]; omega
    have hb : b + n < (swapRange_func data a b n).length := by rw [hl]; omega
    have hsw : PermOn (swapRange_func data a b n)
        (Swap (swapRange_func data a b n) (a + n) (b + n)) a (b + (n + 1)) :=
      PermOn.swap _ ha hb (by omega) (by omega) (by omega) (by omega)
    refine ⟨(hp.mono (le_refl _) (by omega)).trans hsw, ?_⟩
    intro x
    rw [cell_Swap _ ha hb, hc x, hc (a + n), hc (b + n)]
    split_ifs <;> first | rfl | (exfalso; omega) | (congr 1; omega)

theorem rotateLoop_spec (m : Nat) :
    ∀ (fuel i j : Nat) (data : List α), 1 ≤ i → 1 ≤ j → i ≤ m → m + j ≤ data.length →
      i + j ≤ fuel →
      PermOn data (rotateLoop m fuel i j data) (m - i) (m + j) ∧
        ∀ x, cell (rotateLoop m fuel i j data) x =
          if m - i ≤ x ∧ x < m - i + j then cell data (x + i)
          else if m - i + j ≤ x ∧ x < m + j then cell data (x - j) else cell data x := by
  intro fuel
  induction fuel with
  | zero =>
    intro i j data hi hj _ _ hf
    omega
  | succ fuel ih =>
    intro i j data hi hj him hlen hf
    simp only [rotateLoop]
    by_cases hij : i = j
    · subst hij
      simp only [ne_eq, not_true_eq_false, if_false]
      obtain ⟨hp, hc⟩ := swapRange_func_spec data (m - i) m i (by omega) (by omega)
      refine ⟨hp, ?_⟩
      intro x
      rw [hc x]
      split_ifs <;> first | rfl | (exfalso; omega) | (congr 1; omega)
    · rw [if_pos hij]
      by_cases hgt : i > j
      · rw [if_pos hgt]
        obtain ⟨hp, hc⟩ := swapRange_func_spec data (m - i) m j (by omega) (by omega)
        obtain ⟨hp2, hc2⟩ := ih (i - j) j (swapRange_func data (m - i) m j) (by omega) hj
          (by omega) (by rw [hp.length]; omega) (by omega)
        refine ⟨(hp.mono (le_refl _) (le_refl _)).trans (hp2.mono (by omega) (le_refl _)), ?_⟩
        intro x
        rw [hc2 x, hc x, hc (x + (i - j)), hc (x - j)]
        split_ifs <;> first | rfl | (exfalso; omega) | (congr 1; omega)
      · rw [if_neg hgt]
        obtain ⟨hp, hc⟩ := swapRange_func_spec data (m - i) (m + j - i) i (by omega)
          (by omega)
        obtain ⟨hp2, hc2⟩ := ih i (j - i) (swapRange_func data (m - i) (m + j - i) i) hi
          (by omega) him (by rw [hp.length]; omega) (by omega)
        refine ⟨(hp.mono (le_refl _) (by omega)).trans (hp2.mono (le_refl _) (by omega)), ?_⟩
        intro x
        rw [hc2 x, hc x, hc (x + i), hc (x - (j - i))]
        split_ifs <;> first | rfl | (exfalso; omega) | (congr 1; omega)

theorem rotate_func_spec (data : List α) (a m b : Nat) (ham : a < m) (hmb : m < b)
    (hb : b ≤ data.length) :
    PermOn data (rotate_func data a m b) a b ∧
      ∀ x, cell (rotate_func data a m b) x =
        if a ≤ x ∧ x < a + (b - m) then cell data (x + (m - a))
        else if a + (b - m) ≤ x ∧ x < b then cell data (x - (b - m)) else cell data x := by
  unfold rotate_func
  obtain ⟨hp, hc⟩ := rotateLoop_spec m ((m - a) + (b - m)) (m - a) (b - m) data (by omega)
    (by omega) (by omega) (by omega) (le_refl _)
  refine ⟨hp.mono (by omega) (by omega), ?_⟩
  intro x
  rw [hc x]
  split_ifs <;> first | rfl | (exfalso; omega) | (congr 1; omega)

end sort

/-! ## symMerge -/

namespace sort

variable {α : Type} [Inhabited α] {less : α → α → Bool} {S : α → Prop}

theorem SortedOn.le (W : WeakOrderOn less S) {data : List α} {lo hi : Nat}
    (h : SortedOn less data lo hi) (hS : ∀ k, lo ≤ k → k < hi → S (cell data k))
    {x y : Nat} (hx : lo ≤ x) (hxy : x ≤ y) (hy : y < hi) :
    less (cell data y) (cell data x) = false := by
  by_cases he : x = y
  · subst he
    exact W.irrefl _ (hS x hx hy)
  · exact h x y hx (by omega) hy

/-- After the block exchange of symMerge the four runs are sorted and nothing
in the lower half is above anything in the upper half. -/
theorem merge_split (data data1 : List α)
    (a m b mid s e : Nat) (has : a ≤ s) (hsm : s ≤ m) (hme : m ≤ e)
    (heb : e ≤ b) (hmid : s + (e - m) = mid)
    (hleft : SortedOn less data a m) (hright : SortedOn less data m b)
    (hlo : ∀ x y, a ≤ x → x < s → e ≤ y → y < b → less (cell data y) (cell data x) = false)
    (hhi : ∀ u v, s ≤ u → u < m → m ≤ v → v < e → less (cell data u) (cell data v) = false)
    (hcell : ∀ x, cell data1 x =
      if s ≤ x ∧ x < mid then cell data (x + (m - s))
      else if mid ≤ x ∧ x < e then cell data (x - (e - m)) else cell data x) :
    SortedOn less data1 a s ∧ SortedOn less data1 s mid ∧ SortedOn less data1 mid e ∧
      SortedOn less data1 e b ∧
      ∀ x y, a ≤ x → x < mid → mid ≤ y → y < b →
        less (cell data1 y) (cell data1 x) = false := by
  refine ⟨?_, ?_, ?_, ?_, ?_⟩
  · intro x y hx hxy hy
    have ex : cell data1 x = cell data x := by
      rw [hcell]; split_ifs <;> first | rfl | (exfalso; omega)
    have ey : cell data1 y = cell data y := by
      rw [hcell]; split_ifs <;> first | rfl | (exfalso; omega)
    rw [ex, ey]
    exact hleft x y hx hxy (by omega)
  · intro x y hx hxy hy
    have ex : cell data1 x = cell data (x + (m - s)) := by
      rw [hcell]; split_ifs <;> first | rfl | (exfalso; omega)
    have ey : cell data1 y = cell data (y + (m - s)) := by
      rw [hcell]; split_ifs <;> first | rfl | (exfalso; omega)
    rw [ex, ey]
    exact hright _ _ (by omega) (by omega) (by omega)
  · intro x y hx hxy hy
    have ex : cell data1 x = cell data (x - (e - m)) := by
      rw [hcell]; split_ifs <;> first | rfl | (exfalso; omega)
    have ey : cell data1 y = cell data (y - (e - m)) := by
      rw [hcell]; split_ifs <;> first | rfl | (exfalso; omega)
    rw [ex, ey]
    exact hleft _ _ (by omega) (by omega) (by omega)
  · intro x y hx hxy hy
    have ex : cell data1 x = cell data x := by
      rw [hcell]; split_ifs <;> first | rfl | (exfalso; omega)
    have ey : cell data1 y = cell data y := by
      rw [hcell]; split_ifs <;> first | rfl | (exfalso; omega)
    rw [ex, ey]
    exact hright x y (by omega) hxy hy
  · intro x y hx hxm hym hyb
    by_cases hxs : x < s
    · have ex : cell data1 x = cell data x := by
        rw [hcell]; split_ifs <;> first | rfl | (exfalso; omega)
      by_cases hye : y < e
      · have ey : cell data1 y = cell data (y - (e - m)) := by
          rw [hcell]; split_ifs <;> first | rfl | (exfalso; omega)
        rw [ex, ey]
        exact hleft _ _ hx (by omega) (by omega)
      · have ey : cell data1 y = cell data y := by
          rw [hcell]; split_ifs <;> first | rfl | (exfalso; omega)
        rw [ex, ey]
        exact hlo x y hx hxs (by omega) hyb
    · have ex : cell data1 x = cell data (x + (m - s)) := by
        rw [hcell]; split_ifs <;> first | rfl | (exfalso; omega)
      by_cases hye : y < e
      · have ey : cell data1 y = cell data (y - (e - m)) := by
          rw [hcell]; split_ifs <;> first | rfl | (exfalso; omega)
        rw [ex, ey]
        exact hhi _ _ (by omega) (by omega) (by omega) (by omega)
      · have ey : cell data1 y = cell data y := by
          rw [hcell]; split_ifs <;> first | rfl | (exfalso; omega)
        rw [ex, ey]
        exact hright _ _ (by omega) (by omega) hyb

/-- Two sorted halves with nothing in the lower half above anything in the
upper half, each half rearranged from a slice with that property, make a
sorted whole. -/
theorem merge_join (data1 data2 data3 : List α) (a mid b : Nat)
    (hp2 : PermOn data1 data2 a mid) (hs2 : SortedOn less data2 a mid)
    (hp3 : PermOn data2 data3 mid b) (hs3 : SortedOn less data3 mid b)
    (hcross : ∀ x y, a ≤ x → x < mid → mid ≤ y → y < b →
      less (cell data1 y) (cell data1 x) = false) :
    SortedOn less data3 a b := by
  intro x y hx hxy hy
  by_cases hym : y < mid
  · rw [hp3.outside x (by omega), hp3.outside y (by omega)]
    exact hs2 x y hx hxy hym
  · by_cases hxm : x < mid
    · rw [hp3.outside x (by omega)]
      obtain ⟨x2, hx2a, hx2b, hx2⟩ := hp2.inside x hx hxm
      obtain ⟨y2, hy2a, hy2b, hy2⟩ := hp3.inside y (by omega) hy
      rw [hx2, hy2, hp2.outside y2 (by omega)]
      exact hcross x2 y2 hx2a hx2b hy2a hy2b
    · exact hs3 x y (by omega) hxy hy

end sort

namespace sort

variable {α : Type} [Inhabited α] {less : α → α → Bool} {S : α → Prop}

theorem SortedOn.congr {d e : List α} {lo hi : Nat} (h : SortedOn less d lo hi)
    (he : ∀ k, lo ≤ k → k < hi → cell e k = cell d k) : SortedOn less e lo hi := by
  intro x y hx hxy hy
  rw [he x hx (by omega), he y (by omega) hy]
  exact h x y hx hxy hy

theorem SortedOn.sub {d : List α} {lo hi lo2 hi2 : Nat} (h : SortedOn less d lo hi)
    (h1 : lo ≤ lo2) (h2 : hi2 ≤ hi) : SortedOn less d lo2 hi2 :=
  fun x y hx hxy hy => h x y (by omega) hxy (by omega)

/-- The case `m - a == 1` of symMerge: the single left element is inserted
into the right run. -/
theorem symMerge_insert_left (W : WeakOrderOn less S) (data : List α) (a m b : Nat)
    (hm : m = a + 1) (hmb : m < b) (hb : b ≤ data.length)
    (hS : ∀ k, a ≤ k → k < b → S (cell data k)) (hright : SortedOn less data m b) :
    PermOn data
        (swapUp (searchLoop (fun h => Less less data h a) (b - m) m b - 1 - a) a data) a b ∧
      SortedOn less
        (swapUp (searchLoop (fun h => Less less data h a) (b - m) m b - 1 - a) a data) a b := by
  have hmono : ∀ c c2, m ≤ c → c ≤ c2 → c2 < b →
      (fun h => Less less data h a) c2 = true → (fun h => Less less data h a) c = true := by
    intro c c2 h1 h2 h3 h4
    simp only [Less] at h4 ⊢
    exact W.lt_of_le_of_lt (hS _ (by omega) (by omega)) (hS _ (by omega) (by omega))
      (hS _ (by omega) (by omega))
      (SortedOn.le W hright (fun k h1 h2 => hS k (by omega) h2) h1 h2 h3) h4
  obtain ⟨r1, r2, r3, r4⟩ := searchLoop_spec _ (b - m) m b (by omega) (le_refl _) hmono
  generalize searchLoop (fun h => Less less data h a) (b - m) m b = i at r1 r2 r3 r4 ⊢
  simp only [Less] at r3 r4
  obtain ⟨hp, hc⟩ := swapUp_spec (i - 1 - a) a data (by omega)
  refine ⟨hp.mono (le_refl _) (by omega), ?_⟩
  intro x y hx hxy hy
  by_cases hx1 : x < i - 1
  · have ex : cell (swapUp (i - 1 - a) a data) x = cell data (x + 1) := by
      rw [hc]; split_ifs <;> first | rfl | (exfalso; omega)
    by_cases hy1 : y < i - 1
    · have ey : cell (swapUp (i - 1 - a) a data) y = cell data (y + 1) := by
        rw [hc]; split_ifs <;> first | rfl | (exfalso; omega)
      rw [ex, ey]
      exact hright _ _ (by omega) (by omega) (by omega)
    · by_cases hy2 : y = i - 1
      · have ey : cell (swapUp (i - 1 - a) a data) y = cell data a := by
          rw [hc]; split_ifs <;> first | rfl | (exfalso; omega)
        rw [ex, ey]
        exact W.asymm (hS _ (by omega) (by omega)) (hS _ (by omega) (by omega))
          (r3 (x + 1) (by omega) (by omega))
      · have ey : cell (swapUp (i - 1 - a) a data) y = cell data y := by
          rw [hc]; split_ifs <;> first | rfl | (exfalso; omega)
        rw [ex, ey]
        exact hright _ _ (by omega) (by omega) (by omega)
  · have ey : cell (swapUp (i - 1 - a) a data) y = cell data y := by
      rw [hc]; split_ifs <;> first | rfl | (exfalso; omega)
    by_cases hx2 : x = i - 1
    · have ex : cell (swapUp (i - 1 - a) a data) x = cell data a := by
        rw [hc]; split_ifs <;> first | rfl | (exfalso; omega)
      rw [ex, ey]
      exact r4 y (by omega) hy
    · have ex : cell (swapUp (i - 1 - a) a data) x = cell data x := by
        rw [hc]; split_ifs <;> first | rfl | (exfalso; omega)
      rw [ex, ey]
      exact hright _ _ (by omega) (by omega) (by omega)

/-- The case `b - m == 1` of symMerge: the single right element is inserted
into the left run. -/
theorem symMerge_insert_right (W : WeakOrderOn less S) (data : List α) (a m b : Nat)
    (ham : a < m) (hb1 : b = m + 1) (hb : b ≤ data.length)
    (hS : ∀ k, a ≤ k → k < b → S (cell data k)) (hleft : SortedOn less data a m) :
    PermOn data
        (swapDown (m - searchLoop (fun h => !Less less data m h) (m - a) a m) m data) a b ∧
      SortedOn less
        (swapDown (m - searchLoop (fun h => !Less less data m h) (m - a) a m) m data) a b := by
  have hmono : ∀ c c2, a ≤ c → c ≤ c2 → c2 < m →
      (fun h => !Less less data m h) c2 = true → (fun h => !Less less data m h) c = true := by
    intro c c2 h1 h2 h3 h4
    simp only [Less, Bool.not_eq_true'] at h4 ⊢
    exact W.le_trans (hS _ (by omega) (by omega)) (hS _ (by omega) (by omega))
      (hS _ (by omega) (by omega))
      (SortedOn.le W hleft (fun k h1 h2 => hS k h1 (by omega)) h1 h2 h3) h4
  obtain ⟨r1, r2, r3, r4⟩ := searchLoop_spec _ (m - a) a m (by omega) (le_refl _) hmono
  generalize searchLoop (fun h => !Less less data m h) (m - a) a m = i at r1 r2 r3 r4 ⊢
  simp only [Less, Bool.not_eq_true', Bool.not_eq_false'] at r3 r4
  obtain ⟨hp, hc⟩ := swapDown_spec (m - i) m data (by omega) (by omega)
  refine ⟨hp.mono (by omega) (by omega), ?_⟩
  intro x y hx hxy hy
  by_cases hx1 : x < i
  · have ex : cell (swapDown (m - i) m data) x = cell data x := by
      rw [hc]; split_ifs <;> first | rfl | (exfalso; omega)
    by_cases hy1 : y < i
    · have ey : cell (swapDown (m - i) m data) y = cell data y := by
        rw [hc]; split_ifs <;> first | rfl | (exfalso; omega)
      rw [ex, ey]
      exact hleft _ _ (by omega) (by omega) (by omega)
    · by_cases hy2 : y = i
      · have ey : cell (swapDown (m - i) m data) y = cell data m := by
          rw [hc]; split_ifs <;> first | rfl | (exfalso; omega)
        rw [ex, ey]
        exact r3 x hx hx1
      · have ey : cell (swapDown (m - i) m data) y = cell data (y - 1) := by
          rw [hc]; split_ifs <;> first | rfl | (exfalso; omega)
        rw [ex, ey]
        exact hleft _ _ (by omega) (by omega) (by omega)
  · have ey : cell (swapDown (m - i) m data) y = cell data (y - 1) := by
      rw [hc]; split_ifs <;> first | rfl | (exfalso; omega)
    by_cases hx2 : x = i
    · have ex : cell (swapDown (m - i) m data) x = cell data m := by
        rw [hc]; split_ifs <;> first | rfl | (exfalso; omega)
      rw [ex, ey]
      exact W.asymm (hS _ (by omega) (by omega)) (hS _ (by omega) (by omega))
        (r4 (y - 1) (by omega) (by omega))
    · have ex : cell (swapDown (m - i) m data) x = cell data (x - 1) := by
        rw [hc]; split_ifs <;> first | rfl | (exfalso; omega)
      rw [ex, ey]
      exact hleft _ _ (by omega) (by omega) (by omega)

end sort

namespace sort

variable {α : Type} [Inhabited α] {less : α → α → Bool} {S : α → Prop}

/-- What the binary search of the general case of symMerge establishes: the
split point `s` and `e = mid + m - s` bound the blocks to exchange. -/
theorem symMerge_search (W : WeakOrderOn less S) (data : List α) (a m b mid start0 r : Nat)
    (hma : 2 ≤ m - a) (hbm : 2 ≤ b - m) (hmid : mid = (a + b) / 2)
    (hcase : (m > mid ∧ start0 = mid + m - b ∧ r = mid) ∨ (¬ m > mid ∧ start0 = a ∧ r = m))
    (hS : ∀ k, a ≤ k → k < b → S (cell data k))
    (hleft : SortedOn less data a m) (hright : SortedOn less data m b) (s : Nat)
    (hs : s = searchLoop (fun c => !Less less data (mid + m - 1 - c) c) (r - start0) start0 r) :
    a ≤ s ∧ s ≤ m ∧ s ≤ mid ∧ m ≤ mid + m - s ∧ mid + m - s ≤ b ∧
      (∀ x y, a ≤ x → x < s → mid + m - s ≤ y → y < b →
        less (cell data y) (cell data x) = false) ∧
      (∀ u v, s ≤ u → u < m → m ≤ v → v < mid + m - s →
        less (cell data u) (cell data v) = false) := by
  have hleftS : ∀ k, a ≤ k → k < m → S (cell data k) := fun k h1 h2 => hS k h1 (by omega)
  have hrightS : ∀ k, m ≤ k → k < b → S (cell data k) := fun k h1 h2 => hS k (by omega) h2
  have hmono : ∀ c c2, start0 ≤ c → c ≤ c2 → c2 < r →
      (fun c => !Less less data (mid + m - 1 - c) c) c2 = true →
      (fun c => !Less less data (mid + m - 1 - c) c) c = true := by
    intro c c2 h1 h2 h3 h4
    simp only [Less, Bool.not_eq_true'] at h4 ⊢
    have le1 : less (cell data c2) (cell data c) = false :=
      SortedOn.le W hleft hleftS (by omega) h2 (by omega)
    have le3 : less (cell data (mid + m - 1 - c)) (cell data (mid + m - 1 - c2)) = false :=
      SortedOn.le W hright hrightS (by omega) (by omega) (by omega)
    have le12 := W.le_trans (hS _ (by omega) (by omega)) (hS _ (by omega) (by omega))
      (hS _ (by omega) (by omega)) le1 h4
    exact W.le_trans (hS _ (by omega) (by omega)) (hS _ (by omega) (by omega))
      (hS _ (by omega) (by omega)) le12 le3
  obtain ⟨q1, q2, q3, q4⟩ := searchLoop_spec _ (r - start0) start0 r (by omega) (le_refl _)
    hmono
  rw [← hs] at q1 q2 q3 q4
  simp only [Less, Bool.not_eq_true', Bool.not_eq_false'] at q3 q4
  refine ⟨by omega, by omega, by omega, by omega, by omega, ?_, ?_⟩
  · intro x y hx hxs hey hyb
    have hgt : start0 < s := by omega
    have hq := q3 (s - 1) (by omega) (by omega)
    have e1 : mid + m - 1 - (s - 1) = mid + m - s := by omega
    rw [e1] at hq
    have le1 : less (cell data (s - 1)) (cell data x) = false :=
      SortedOn.le W hleft hleftS hx (by omega) (by omega)
    have le3 : less (cell data y) (cell data (mid + m - s)) = false :=
      SortedOn.le W hright hrightS (by omega) hey hyb
    have le12 := W.le_trans (hS _ (by omega) (by omega)) (hS _ (by omega) (by omega))
      (hS _ (by omega) (by omega)) le1 hq
    exact W.le_trans (hS _ (by omega) (by omega)) (hS _ (by omega) (by omega))
      (hS _ (by omega) (by omega)) le12 le3
  · intro u v hsu hum hmv hve
    have hlt : s < r := by omega
    have hq := q4 s (le_refl _) hlt
    have e1 : mid + m - 1 - s = mid + m - s - 1 := by omega
    rw [e1] at hq
    have le1 : less (cell data (mid + m - s - 1)) (cell data v) = false :=
      SortedOn.le W hright hrightS hmv (by omega) (by omega)
    have lt1 : less (cell data v) (cell data s) = true :=
      W.lt_of_le_of_lt (hS _ (by omega) (by omega)) (hS _ (by omega) (by omega))
        (hS _ (by omega) (by omega)) le1 hq
    have le2 : less (cell data u) (cell data s) = false :=
      SortedOn.le W hleft hleftS (by omega) hsu hum
    have lt2 : less (cell data v) (cell data u) = true :=
      W.lt_of_lt_of_le (hS _ (by omega) (by omega)) (hS _ (by omega) (by omega))
        (hS _ (by omega) (by omega)) lt1 le2
    exact W.asymm (hS _ (by omega) (by omega)) (hS _ (by omega) (by omega)) lt2

/-- Go `symMerge_func` merges two adjacent sorted runs: the cells `a ≤ k < b`
are rearranged into sorted order and no other cell changes. -/
theorem symMerge_func_spec (W : WeakOrderOn less S) :
    ∀ (fuel : Nat) (data : List α) (a m b : Nat), a < m → m < b → b ≤ data.length →
      b - a ≤ fuel → (∀ k, a ≤ k → k < b → S (cell data k)) →
      SortedOn less data a m → SortedOn less data m b →
      PermOn data (symMerge_func less fuel data a m b) a b ∧
        SortedOn less (symMerge_func less fuel data a m b) a b := by
  intro fuel
  induction fuel with
  | zero =>
    intro data a m b h1 h2 _ hf
    omega
  | succ fuel ih =>
    intro data a m b ham hmb hb hfuel hS hleft hright
    simp only [symMerge_func]
    by_cases hc1 : m - a = 1
    · rw [if_pos hc1]
      exact symMerge_insert_left W data a m b (by omega) hmb hb hS hright
    · rw [if_neg hc1]
      by_cases hc2 : b - m = 1
      · rw [if_pos hc2]
        exact symMerge_insert_right W data a m b ham (by omega) hb hS hleft
      · rw [if_neg hc2]
        obtain ⟨mid, hmid⟩ : ∃ mid, mid = (a + b) / 2 := ⟨_, rfl⟩
        rw [← hmid]
        obtain ⟨start0, hstart0⟩ :
          ∃ start0, start0 = if m > mid then mid + m - b else a := ⟨_, rfl⟩
        obtain ⟨r, hr⟩ : ∃ r, r = if m > mid then mid else m := ⟨_, rfl⟩
        rw [← hstart0, ← hr]
        have hcase : (m > mid ∧ start0 = mid + m - b ∧ r = mid) ∨
            (¬ m > mid ∧ start0 = a ∧ r = m) := by
          by_cases hm : m > mid
          · left
            rw [hstart0, hr, if_pos hm, if_pos hm]
            exact ⟨hm, rfl, rfl⟩
          · right
            rw [hstart0, hr, if_neg hm, if_neg hm]
            exact ⟨hm, rfl, rfl⟩
        obtain ⟨s, hs⟩ : ∃ s, s = searchLoop
          (fun c => !Less less data (mid + m - 1 - c) c) (r - start0) start0 r := ⟨_, rfl⟩
        rw [← hs]
        obtain ⟨has, hsm, hsmid, hme, heb, hlo, hhi⟩ := symMerge_search W data a m b mid
          start0 r (by omega) (by omega) hmid hcase hS hleft hright s hs
        obtain ⟨e, he⟩ : ∃ e, e = mid + m - s := ⟨_, rfl⟩
        rw [← he] at hme heb hlo hhi ⊢
        obtain ⟨data1, hd1⟩ :
          ∃ data1, data1 = if s < m ∧ m < e then rotate_func data s m e else data := ⟨_, rfl⟩
        rw [← hd1]
        have h1spec : PermOn data data1 a b ∧ ∀ x, cell data1 x =
            if s ≤ x ∧ x < mid then cell data (x + (m - s))
            else if mid ≤ x ∧ x < e then cell data (x - (e - m)) else cell data x := by
          rw [hd1]
          by_cases hg : s < m ∧ m < e
          · rw [if_pos hg]
            obtain ⟨hp, hc⟩ := rotate_func_spec data s m e hg.1 hg.2 (by omega)
            refine ⟨hp.mono has heb, fun x => ?_⟩
            rw [hc x]
            split_ifs <;> first | rfl | (exfalso; omega) | (congr 1; omega)
          · rw [if_neg hg]
            refine ⟨PermOn.refl _ _ _, fun x => ?_⟩
            split_ifs <;> first | rfl | (exfalso; omega) | (congr 1; omega)
        obtain ⟨hp1, hcell1⟩ := h1spec
        obtain ⟨g1, g2, g3, g4, gcross⟩ := merge_split data data1 a m b mid s e has hsm hme
          heb (by omega) hleft hright hlo hhi hcell1
        have hS1 : ∀ k, a ≤ k → k < b → S (cell data1 k) :=
          hp1.allS hS (le_refl _) (le_refl _)
        obtain ⟨data2, hd2⟩ : ∃ data2, data2 =
          if a < s ∧ s < mid then symMerge_func less fuel data1 a s mid else data1 := ⟨_, rfl⟩
        rw [← hd2]
        have h2spec : PermOn data1 data2 a mid ∧ SortedOn less data2 a mid := by
          rw [hd2]
          by_cases hg : a < s ∧ s < mid
          · rw [if_pos hg]
            exact ih data1 a s mid hg.1 hg.2 (by rw [hp1.length]; omega) (by omega)
              (fun k h1 h2 => hS1 k h1 (by omega)) g1 g2
          · rw [if_neg hg]
            refine ⟨PermOn.refl _ _ _, ?_⟩
            by_cases hsa : s = a
            · rw [hsa] at g2
              exact g2
            · have : s = mid := by omega
              rw [this] at g1
              exact g1
        obtain ⟨hp2, hs2⟩ := h2spec
        have hS2 : ∀ k, a ≤ k → k < b → S (cell data2 k) :=
          hp2.allS hS1 (le_refl _) (by omega)
        have h3spec : PermOn data2
            (if mid < e ∧ e < b then symMerge_func less fuel data2 mid e b else data2) mid b ∧
            SortedOn less
              (if mid < e ∧ e < b then symMerge_func less fuel data2 mid e b else data2)
              mid b := by
          have g3b : SortedOn less data2 mid e :=
            g3.congr (fun k h1 h2 => hp2.outside k (by omega))
          have g4b : SortedOn less data2 e b :=
            g4.congr (fun k h1 h2 => hp2.outside k (by omega))
          by_cases hg : mid < e ∧ e < b
          · rw [if_pos hg]
            exact ih data2 mid e b hg.1 hg.2 (by rw [hp2.length, hp1.length]; omega)
              (by omega) (fun k h1 h2 => hS2 k (by omega) h2) g3b g4b
          · rw [if_neg hg]
            refine ⟨PermOn.refl _ _ _, ?_⟩
            by_cases hem : e = mid
            · rw [hem] at g4b
              exact g4b
            · have : e = b := by omega
              rw [this] at g3b
              exact g3b
        obtain ⟨hp3, hs3⟩ := h3spec
        refine ⟨?_, merge_join data1 data2 _ a mid b hp2 hs2 hp3 hs3 gcross⟩
        exact hp1.trans ((hp2.mono (le_refl _) (by omega)).trans (hp3.mono (by omega) (le_refl _)))

end sort

/-! ## stable_func -/

namespace sort

variable {α : Type} [Inhabited α] {less : α → α → Bool} {S : α → Prop}

theorem insertBlocks_spec (W : WeakOrderOn less S) (n blockSize : Nat) (hB : 1 ≤ blockSize) :
    ∀ (fuel a b : Nat) (data : List α) (q0 : Nat), a = q0 * blockSize → b = a + blockSize →
      a ≤ n → n ≤ data.length → n ≤ a + fuel →
      (∀ k, k < n → S (cell data k)) →
      (∀ q, q < q0 → SortedOn less data (q * blockSize) (q * blockSize + blockSize)) →
      PermOn data (insertBlocks less n blockSize fuel a b data) 0 n ∧
        BlocksSorted less (insertBlocks less n blockSize fuel a b data) blockSize n := by
  intro fuel
  induction fuel with
  | zero =>
    intro a b data q0 ha hb han hlen hfuel hS hdone
    simp only [insertBlocks]
    have hanq : a = n := by omega
    obtain ⟨hp, hs⟩ := insertionSort_func_spec W data a n han hlen
      (fun k h1 h2 => hS k h2)
    refine ⟨hp.mono (by omega) (le_refl _), ?_⟩
    intro q
    by_cases hq : q < q0
    · have hle : (q + 1) * blockSize ≤ q0 * blockSize := Nat.mul_le_mul_right _ hq
      rw [Nat.add_mul, Nat.one_mul] at hle
      have := (hdone q hq).congr (e := insertionSort_func less data a n)
        (fun k h1 h2 => hp.outside k (by omega))
      exact this.sub (le_refl _) (by omega)
    · have hle : q0 * blockSize ≤ q * blockSize := Nat.mul_le_mul_right _ (by omega)
      intro x y hx hxy hy
      have : y < n := by omega
      omega
  | succ fuel ih =>
    intro a b data q0 ha hb han hlen hfuel hS hdone
    simp only [insertBlocks]
    by_cases hbn : b ≤ n
    · rw [if_pos hbn]
      obtain ⟨hp, hs⟩ := insertionSort_func_spec W data a b (by omega) (by omega)
        (fun k h1 h2 => hS k (by omega))
      have hp0 : PermOn data (insertionSort_func less data a b) 0 n :=
        hp.mono (by omega) hbn
      have hdone2 : ∀ q, q < q0 + 1 → SortedOn less (insertionSort_func less data a b)
          (q * blockSize) (q * blockSize + blockSize) := by
        intro q hq
        by_cases hq0 : q < q0
        · have hle : (q + 1) * blockSize ≤ q0 * blockSize := Nat.mul_le_mul_right _ hq0
          rw [Nat.add_mul, Nat.one_mul] at hle
          exact (hdone q hq0).congr (fun k h1 h2 => hp.outside k (by omega))
        · have : q = q0 := by omega
          subst this
          rw [← ha, ← hb]
          exact hs
      obtain ⟨hp2, hs2⟩ := ih b (b + blockSize) (insertionSort_func less data a b) (q0 + 1)
        (by rw [Nat.add_mul, Nat.one_mul]; omega) rfl hbn (by rw [hp.length]; exact hlen)
        (by omega) (fun k hk => hp0.allS (u := 0) (v := n) (fun k _ h2 => hS k h2)
          (le_refl _) (le_refl _) k (by omega) hk) hdone2
      exact ⟨hp0.trans hp2, hs2⟩
    · rw [if_neg hbn]
      obtain ⟨hp, hs⟩ := insertionSort_func_spec W data a n han hlen
        (fun k h1 h2 => hS k h2)
      refine ⟨hp.mono (by omega) (le_refl _), ?_⟩
      intro q
      by_cases hq : q < q0
      · have hle : (q + 1) * blockSize ≤ q0 * blockSize := Nat.mul_le_mul_right _ hq
        rw [Nat.add_mul, Nat.one_mul] at hle
        have := (hdone q hq).congr (e := insertionSort_func less data a n)
          (fun k h1 h2 => hp.outside k (by omega))
        exact this.sub (le_refl _) (by omega)
      · by_cases hq0 : q = q0
        · subst hq0
          rw [← ha]
          exact hs.sub (le_refl _) (by omega)
        · have hle : (q0 + 1) * blockSize ≤ q * blockSize :=
            Nat.mul_le_mul_right _ (by omega)
          rw [Nat.add_mul, Nat.one_mul] at hle
          intro x y hx hxy hy
          have : y < n := by omega
          omega

theorem mergePass_spec (W : WeakOrderOn less S) (n blockSize : Nat) (hB : 1 ≤ blockSize) :
    ∀ (fuel a b : Nat) (data : List α) (q0 : Nat), a = q0 * (2 * blockSize) →
      b = a + 2 * blockSize → a ≤ n → n ≤ data.length → n + 1 ≤ a + fuel →
      (∀ k, k < n → S (cell data k)) →
      (∀ q, q < q0 →
        SortedOn less data (q * (2 * blockSize)) (q * (2 * blockSize) + 2 * blockSize)) →
      (∀ q, 2 * q0 ≤ q →
        SortedOn less data (q * blockSize) (min (q * blockSize + blockSize) n)) →
      PermOn data (mergePass less n blockSize fuel a b data) 0 n ∧
        BlocksSorted less (mergePass less n blockSize fuel a b data) (2 * blockSize) n := by
  intro fuel
  induction fuel with
  | zero =>
    intro a b data q0 ha hb han hlen hfuel
    omega
  | succ fuel ih =>
    intro a b data q0 ha hb han hlen hfuel hS hdone hpend
    simp only [mergePass]
    have hq0B : (2 * q0) * blockSize = a := by rw [ha]; ring
    have hq1B : (2 * q0 + 1) * blockSize = a + blockSize := by rw [ha]; ring
    have hrun1 := hpend (2 * q0) (le_refl _)
    have hrun2 := hpend (2 * q0 + 1) (by omega)
    rw [hq0B] at hrun1
    rw [hq1B] at hrun2
    by_cases hbn : b ≤ n
    · rw [if_pos hbn]
      obtain ⟨hp, hs⟩ := symMerge_func_spec W (b - a) data a (a + blockSize) b (by omega)
        (by omega) (by omega) (le_refl _) (fun k h1 h2 => hS k (by omega))
        (hrun1.sub (le_refl _) (by omega)) (hrun2.sub (le_refl _) (by omega))
      have hp0 : PermOn data (symMerge_func less (b - a) data a (a + blockSize) b) 0 n :=
        hp.mono (by omega) hbn
      have hdone2 : ∀ q, q < q0 + 1 →
          SortedOn less (symMerge_func less (b - a) data a (a + blockSize) b)
            (q * (2 * blockSize)) (q * (2 * blockSize) + 2 * blockSize) := by
        intro q hq
        by_cases hqlt : q < q0
        · have hle : (q + 1) * (2 * blockSize) ≤ q0 * (2 * blockSize) :=
            Nat.mul_le_mul_right _ hqlt
          rw [Nat.add_mul, Nat.one_mul] at hle
          exact (hdone q hqlt).congr (fun k h1 h2 => hp.outside k (by omega))
        · have : q = q0 := by omega
          subst this
          rw [← ha, ← hb]
          exact hs
      have hpend2 : ∀ q, 2 * (q0 + 1) ≤ q →
          SortedOn less (symMerge_func less (b - a) data a (a + blockSize) b)
            (q * blockSize) (min (q * blockSize + blockSize) n) := by
        intro q hq
        have hle : (2 * (q0 + 1)) * blockSize ≤ q * blockSize := Nat.mul_le_mul_right _ hq
        have e : (2 * (q0 + 1)) * blockSize = b := by rw [hb, ha]; ring
        rw [e] at hle
        exact (hpend q (by omega)).congr (fun k h1 h2 => hp.outside k (by omega))
      obtain ⟨hp2, hs2⟩ := ih b (b + 2 * blockSize)
        (symMerge_func less (b - a) data a (a + blockSize) b) (q0 + 1)
        (by rw [Nat.add_mul, Nat.one_mul]; omega) rfl hbn (by rw [hp.length]; exact hlen)
        (by omega) (fun k hk => hp0.allS (u := 0) (v := n) (fun k _ h2 => hS k h2)
          (le_refl _) (le_refl _) k (by omega) hk) hdone2 hpend2
      exact ⟨hp0.trans hp2, hs2⟩
    · rw [if_neg hbn]
      have hfinal : ∀ (out : List α), PermOn data out a n → SortedOn less out a n →
          PermOn data out 0 n ∧ BlocksSorted less out (2 * blockSize) n := by
        intro out hp hs
        refine ⟨hp.mono (by omega) (le_refl _), ?_⟩
        intro q
        by_cases hqlt : q < q0
        · have hle : (q + 1) * (2 * blockSize) ≤ q0 * (2 * blockSize) :=
            Nat.mul_le_mul_right _ hqlt
          rw [Nat.add_mul, Nat.one_mul] at hle
          have := (hdone q hqlt).congr (e := out) (fun k h1 h2 => hp.outside k (by omega))
          exact this.sub (le_refl _) (by omega)
        · by_cases hq0 : q = q0
          · subst hq0
            rw [← ha]
            exact hs.sub (le_refl _) (by omega)
          · have hle : (q0 + 1) * (2 * blockSize) ≤ q * (2 * blockSize) :=
              Nat.mul_le_mul_right _ (by omega)
            rw [Nat.add_mul, Nat.one_mul] at hle
            intro x y hx hxy hy
            have : y < n := by omega
            omega
      by_cases hmn : a + blockSize < n
      · rw [if_pos hmn]
        obtain ⟨hp, hs⟩ := symMerge_func_spec W (n - a) data a (a + blockSize) n (by omega)
          hmn hlen (le_refl _) (fun k h1 h2 => hS k h2)
          (hrun1.sub (le_refl _) (by omega)) (hrun2.sub (le_refl _) (by omega))
        exact hfinal _ hp hs
      · rw [if_neg hmn]
        exact hfinal data (PermOn.refl _ _ _) (hrun1.sub (le_refl _) (by omega))

theorem mergePasses_spec (W : WeakOrderOn less S) (n : Nat) :
    ∀ (fuel blockSize : Nat) (data : List α), 1 ≤ blockSize → n ≤ blockSize * 2 ^ fuel →
      n ≤ data.length → (∀ k, k < n → S (cell data k)) →
      BlocksSorted less data blockSize n →
      PermOn data (mergePasses less n fuel blockSize data) 0 n ∧
        SortedOn less (mergePasses less n fuel blockSize data) 0 n := by
  intro fuel
  induction fuel with
  | zero =>
    intro blockSize data hB hn hlen hS hblocks
    simp only [mergePasses]
    refine ⟨PermOn.refl _ _ _, ?_⟩
    have := hblocks 0
    simp only [Nat.zero_mul, Nat.zero_add] at this
    exact this.sub (le_refl _) (by simp at hn; omega)
  | succ fuel ih =>
    intro blockSize data hB hn hlen hS hblocks
    simp only [mergePasses]
    by_cases hlt : blockSize < n
    · rw [if_pos hlt]
      obtain ⟨hp, hs⟩ := mergePass_spec W n blockSize hB (n + 1) 0 (2 * blockSize) data 0
        (by simp) (by simp) (Nat.zero_le _) hlen (by omega) hS
        (fun q hq => by omega) (fun q _ => hblocks q)
      obtain ⟨hp2, hs2⟩ := ih (2 * blockSize)
        (mergePass less n blockSize (n + 1) 0 (2 * blockSize) data) (by omega)
        (by rw [Nat.pow_succ] at hn; calc n ≤ blockSize * (2 ^ fuel * 2) := hn
          _ = 2 * blockSize * 2 ^ fuel := by ring)
        (by rw [hp.length]; exact hlen)
        (fun k hk => hp.allS (u := 0) (v := n) (fun k _ h2 => hS k h2)
          (le_refl _) (le_refl _) k (by omega) hk) hs
      exact ⟨hp.trans hp2, hs2⟩
    · rw [if_neg hlt]
      refine ⟨PermOn.refl _ _ _, ?_⟩
      have := hblocks 0
      simp only [Nat.zero_mul, Nat.zero_add] at this
      exact this.sub (le_refl _) (by omega)

/-- Go `stable_func` sorts: under a comparator that is a strict weak order on
the elements at hand, the first `n` cells end up rearranged in sorted order. -/
theorem stable_func_spec (W : WeakOrderOn less S) (data : List α) (n : Nat)
    (hlen : n ≤ data.length) (hS : ∀ k, k < n → S (cell data k)) :
    PermOn data (stable_func less data n) 0 n ∧
      SortedOn less (stable_func less data n) 0 n := by
  unfold stable_func
  obtain ⟨hp, hs⟩ := insertBlocks_spec W n 20 (by omega) n 0 20 data 0 (by simp) (by simp)
    (Nat.zero_le _) hlen (by omega) hS (fun q hq => by omega)
  obtain ⟨hp2, hs2⟩ := mergePasses_spec W n n 20 (insertBlocks less n 20 n 0 20 data)
    (by omega) (by have := Nat.lt_two_pow n; omega) (by rw [hp.length]; exact hlen)
    (fun k hk => hp.allS (u := 0) (v := n) (fun k _ h2 => hS k h2)
      (le_refl _) (le_refl _) k (by omega) hk) hs
  exact ⟨hp.trans hp2, hs2⟩

end sort

/-! ## The fuel of the loops is enough, whatever the comparator

The recursion depth of symMerge and the iteration counts of the loops of
stable_func depend on the indices only: more fuel than the bound used by
`stable_func` changes nothing, also for a comparator that is no order. -/

namespace sort

variable {α : Type} [Inhabited α] (less : α → α → Bool)

theorem symMerge_func_fuel :
    ∀ (fuel1 fuel2 : Nat) (data : List α) (a m b : Nat), a < m → m < b →
      b - a ≤ fuel1 → b - a ≤ fuel2 →
      symMerge_func less fuel1 data a m b = symMerge_func less fuel2 data a m b := by
  intro fuel1
  induction fuel1 with
  | zero =>
    intro fuel2 data a m b h1 h2 h3 _
    omega
  | succ fuel1 ih =>
    intro fuel2 data a m b ham hmb hf1 hf2
    cases fuel2 with
    | zero => omega
    | succ fuel2 =>
      simp only [symMerge_func]
      by_cases hc1 : m - a = 1
      · rw [if_pos hc1, if_pos hc1]
      · rw [if_neg hc1, if_neg hc1]
        by_cases hc2 : b - m = 1
        · rw [if_pos hc2, if_pos hc2]
        · rw [if_neg hc2, if_neg hc2]
          obtain ⟨mid, hmid⟩ : ∃ mid, mid = (a + b) / 2 := ⟨_, rfl⟩
          rw [← hmid]
          obtain ⟨s, hs⟩ : ∃ s, s = searchLoop
            (fun c => !Less less data (mid + m - 1 - c) c)
            ((if m > mid then mid else m) - if m > mid then mid + m - b else a)
            (if m > mid then mid + m - b else a) (if m > mid then mid else m) := ⟨_, rfl⟩
          rw [← hs]
          obtain ⟨data1, hd1⟩ : ∃ data1, data1 =
            if s < m ∧ m < mid + m - s then rotate_func data s m (mid + m - s) else data :=
            ⟨_, rfl⟩
          rw [← hd1]
          have e2 : (if a < s ∧ s < mid then symMerge_func less fuel1 data1 a s mid
              else data1) =
              (if a < s ∧ s < mid then symMerge_func less fuel2 data1 a s mid else data1) := by
            by_cases hg : a < s ∧ s < mid
            · rw [if_pos hg, if_pos hg]
              exact ih fuel2 data1 a s mid hg.1 hg.2 (by omega) (by omega)
            · rw [if_neg hg, if_neg hg]
          rw [e2]
          by_cases hg : mid < mid + m - s ∧ mid + m - s < b
          · rw [if_pos hg, if_pos hg]
            exact ih fuel2 _ mid (mid + m - s) b hg.1 hg.2 (by omega) (by omega)
          · rw [if_neg hg, if_neg hg]

theorem insertBlocks_fuel (n blockSize : Nat) (hB : 1 ≤ blockSize) :
    ∀ (fuel1 fuel2 a b : Nat) (data : List α), b = a + blockSize → n ≤ a + fuel1 →
      n ≤ a + fuel2 →
      insertBlocks less n blockSize fuel1 a b data =
        insertBlocks less n blockSize fuel2 a b data := by
  intro fuel1
  induction fuel1 with
  | zero =>
    intro fuel2 a b data hb h1 h2
    cases fuel2 with
    | zero => rfl
    | succ fuel2 =>
      simp only [insertBlocks]
      rw [if_neg (by omega)]
  | succ fuel1 ih =>
    intro fuel2 a b data hb h1 h2
    cases fuel2 with
    | zero =>
      simp only [insertBlocks]
      rw [if_neg (by omega)]
    | succ fuel2 =>
      simp only [insertBlocks]
      by_cases hbn : b ≤ n
      · rw [if_pos hbn, if_pos hbn]
        exact ih fuel2 b (b + blockSize) _ rfl (by omega) (by omega)
      · rw [if_neg hbn, if_neg hbn]

theorem mergePass_fuel (n blockSize : Nat) (hB : 1 ≤ blockSize) :
    ∀ (fuel1 fuel2 a b : Nat) (data : List α), b = a + 2 * blockSize → a ≤ n →
      n + 1 ≤ a + fuel1 → n + 1 ≤ a + fuel2 →
      mergePass less n blockSize fuel1 a b data =
        mergePass less n blockSize fuel2 a b data := by
  intro fuel1
  induction fuel1 with
  | zero =>
    intro fuel2 a b data hb han h1 h2
    omega
  | succ fuel1 ih =>
    intro fuel2 a b data hb han h1 h2
    cases fuel2 with
    | zero => omega
    | succ fuel2 =>
      simp only [mergePass]
      by_cases hbn : b ≤ n
      · rw [if_pos hbn, if_pos hbn]
        exact ih fuel2 b (b + 2 * blockSize) _ rfl hbn (by omega) (by omega)
      · rw [if_neg hbn, if_neg hbn]

theorem mergePasses_fuel (n : Nat) :
    ∀ (fuel1 fuel2 blockSize : Nat) (data : List α), n ≤ blockSize * 2 ^ fuel1 →
      n ≤ blockSize * 2 ^ fuel2 →
      mergePasses less n fuel1 blockSize data = mergePasses less n fuel2 blockSize data := by
  intro fuel1
  induction fuel1 with
  | zero =>
    intro fuel2 blockSize data h1 h2
    simp only [pow_zero, mul_one] at h1
    cases fuel2 with
    | zero => rfl
    | succ fuel2 =>
      simp only [mergePasses]
      rw [if_neg (by omega)]
  | succ fuel1 ih =>
    intro fuel2 blockSize data h1 h2
    cases fuel2 with
    | zero =>
      simp only [pow_zero, mul_one] at h2
      simp only [mergePasses]
      rw [if_neg (by omega)]
    | succ fuel2 =>
      simp only [mergePasses]
      by_cases hlt : blockSize < n
      · rw [if_pos hlt, if_pos hlt]
        apply ih
        · rw [Nat.pow_succ] at h1
          calc n ≤ blockSize * (2 ^ fuel1 * 2) := h1
            _ = 2 * blockSize * 2 ^ fuel1 := by ring
        · rw [Nat.pow_succ] at h2
          calc n ≤ blockSize * (2 ^ fuel2 * 2) := h2
            _ = 2 * blockSize * 2 ^ fuel2 := by ring
      · rw [if_neg hlt, if_neg hlt]

end sort

/-! ## sort.SliceStable on the records of main -/

namespace sort

variable {α : Type} [Inhabited α] {less : α → α → Bool} {S : α → Prop}

theorem cell_of_lt (x : List α) {k : Nat} (hk : k < x.length) : cell x k = x[k] := by
  simp [cell, List.getD_eq_getElem?_getD, List.getElem?_eq_getElem hk]

/-- Go `sort.SliceStable` with a comparator that is a strict weak order on the
elements of the slice returns a permutation of the slice in which no element
is less than an earlier one. -/
theorem SliceStable_sorted_perm (W : WeakOrderOn less S) (x : List α)
    (hS : ∀ r ∈ x, S r) :
    (SliceStable less x).Perm x ∧
      (SliceStable less x).Pairwise (fun u v => less v u = false) := by
  unfold SliceStable
  obtain ⟨hp, hs⟩ := stable_func_spec W x x.length (le_refl _)
    (fun k hk => by rw [cell_of_lt x hk]; exact hS _ (List.getElem_mem _))
  refine ⟨hp.perm (le_refl _), ?_⟩
  rw [List.pairwise_iff_getElem]
  intro i j hi hj hij
  rw [← cell_of_lt _ hi, ← cell_of_lt _ hj]
  exact hs i j (Nat.zero_le _) hij (by rw [← hp.length]; exact hj)

end sort

theorem Compare_range (a b : String) :
    strings.Compare a b = -1 ∨ strings.Compare a b = 0 ∨ strings.Compare a b = 1 :=
  bytesCompare_range _ _

theorem Compare_algebra (p q r : String) :
    (strings.Compare p q < 0 → strings.Compare q r < 0 → strings.Compare p r < 0) ∧
    (strings.Compare p q = 0 → strings.Compare p r = strings.Compare q r) ∧
    (strings.Compare q r = 0 → strings.Compare p r = strings.Compare p q) ∧
    (0 < strings.Compare p q → 0 < strings.Compare q r → 0 < strings.Compare p r) := by
  refine ⟨Compare_lt_trans, ?_, ?_, ?_⟩
  · intro h
    rw [Compare_eq_zero_iff.mp h]
  · intro h
    rw [Compare_eq_zero_iff.mp h]
  · intro h1 h2
    have e1 := Compare_swap p q
    have e2 := Compare_swap q r
    have e3 := Compare_swap p r
    have := @Compare_lt_trans r q p (by omega) (by omega)
    omega

theorem houseLess_iff (a b : Record) (ha : stnoParses a) (hb : stnoParses b) :
    houseLess a b = true ↔
      (strings.Compare (a.get "STNAME") (b.get "STNAME") < 0 ∨
        (strings.Compare (a.get "STNAME") (b.get "STNAME") = 0 ∧ stnoInt a < stnoInt b)) := by
  unfold houseLess stnoInt
  unfold stnoParses at ha hb
  rcases hx : strconv.ParseInt (a.get "STNO") 10 32 with ⟨vx, ex⟩
  rcases hy : strconv.ParseInt (b.get "STNO") 10 32 with ⟨vy, ey⟩
  rw [hx] at ha
  rw [hy] at hb
  simp only at ha hb
  subst ha hb
  by_cases hd : strings.Compare (a.get "STNAME") (b.get "STNAME") = 0
  · simp [hd]
  · simp [hd]

theorem houseLess_weakOrder : sort.WeakOrderOn houseLess stnoParses := by
  have key : ∀ a b, stnoParses a → stnoParses b →
      (houseLess a b = false ↔
        ¬ (strings.Compare (a.get "STNAME") (b.get "STNAME") < 0 ∨
          (strings.Compare (a.get "STNAME") (b.get "STNAME") = 0 ∧
            stnoInt a < stnoInt b))) := by
    intro a b ha hb
    rw [← houseLess_iff a b ha hb]
    simp
  refine ⟨?_, ?_, ?_⟩
  · intro x hx
    rw [key x x hx hx, Compare_self]
    omega
  · intro x y z hx hy hz h1 h2
    rw [houseLess_iff _ _ hx hy] at h1
    rw [houseLess_iff _ _ hy hz] at h2
    rw [houseLess_iff _ _ hx hz]
    obtain ⟨f1, f2, f3, f4⟩ :=
      Compare_algebra (x.get "STNAME") (y.get "STNAME") (z.get "STNAME")
    have r1 := Compare_range (x.get "STNAME") (y.get "STNAME")
    have r2 := Compare_range (y.get "STNAME") (z.get "STNAME")
    have r3 := Compare_range (x.get "STNAME") (z.get "STNAME")
    omega
  · intro x y z hx hy hz h1 h2
    rw [key _ _ hx hy] at h1
    rw [key _ _ hy hz] at h2
    rw [key _ _ hx hz]
    obtain ⟨f1, f2, f3, f4⟩ :=
      Compare_algebra (x.get "STNAME") (y.get "STNAME") (z.get "STNAME")
    have r1 := Compare_range (x.get "STNAME") (y.get "STNAME")
    have r2 := Compare_range (y.get "STNAME") (z.get "STNAME")
    have r3 := Compare_range (x.get "STNAME") (z.get "STNAME")
    omega

theorem keyLe_of_not_less (u v : Record) (hu : stnoParses u) (hv : stnoParses v)
    (h : houseLess v u = false) : keyLe u v := by
  have hn : ¬ houseLess v u = true := by simp [h]
  rw [houseLess_iff v u hv hu] at hn
  unfold keyLe
  have e := Compare_swap (u.get "STNAME") (v.get "STNAME")
  have r1 := Compare_range (u.get "STNAME") (v.get "STNAME")
  by_cases hlt : strings.Compare (u.get "STNAME") (v.get "STNAME") < 0
  · exact Or.inl hlt
  · right
    have hz : strings.Compare (u.get "STNAME") (v.get "STNAME") = 0 := by omega
    exact ⟨Compare_eq_zero_iff.mp hz, by omega⟩

/-- C2. When the STNO of every record parses as a base-10 signed 32-bit
integer, the sort step of main returns a permutation of the records in which
STNAME is non-decreasing in byte order and, among records with equal STNAME,
the parsed STNO is non-decreasing; the record ELM 4 comes before the record
ELM 12 whichever comes first in the input. -/
theorem sliceStable_houses_sorted (houses : List Record)
    (hparse : ∀ r ∈ houses, stnoParses r) :
    (sort.SliceStable houseLess houses).Perm houses ∧
    (sort.SliceStable houseLess houses).Pairwise keyLe ∧
    (sort.SliceStable houseLess
        [((∅ : Record).insert "STNAME" "ELM").insert "STNO" "12",
          ((∅ : Record).insert "STNAME" "ELM").insert "STNO" "4"]).map
        (fun r => (r.get "STNAME", r.get "STNO")) = [("ELM", "4"), ("ELM", "12")] ∧
    (sort.SliceStable houseLess
        [((∅ : Record).insert "STNAME" "ELM").insert "STNO" "4",
          ((∅ : Record).insert "STNAME" "ELM").insert "STNO" "12"]).map
        (fun r => (r.get "STNAME", r.get "STNO")) = [("ELM", "4"), ("ELM", "12")] := by
  obtain ⟨hp, hs⟩ := sort.SliceStable_sorted_perm houseLess_weakOrder houses hparse
  refine ⟨hp, ?_, by decide, by decide⟩
  refine hs.imp_of_mem ?_
  intro u v hu hv h
  exact keyLe_of_not_less u v (hparse u (hp.mem_iff.mp hu)) (hparse v (hp.mem_iff.mp hv)) h

/-- C2 at a concrete input: three records, OAK 7, ELM 12 and ELM 4, all with an STNO
that parses. -/
theorem sliceStable_houses_sorted_witness :
    (sort.SliceStable houseLess
        [((∅ : Record).insert "STNAME" "OAK").insert "STNO" "7",
          ((∅ : Record).insert "STNAME" "ELM").insert "STNO" "12",
          ((∅ : Record).insert "STNAME" "ELM").insert "STNO" "4"]).Pairwise keyLe :=
  (sliceStable_houses_sorted _ (by decide)).2.1

/-- C1, the code at a failing input. Two records have the same STNAME and the
same STNO, which is empty and so does not parse; they differ in OWNER only.
The sort step of main returns them in the opposite order: equal keys do not
keep their input order. -/
theorem sliceStable_reverses_equal_keys :
    (sort.SliceStable houseLess
        [(((∅ : Record).insert "STNAME" "ELM").insert "STNO" "").insert "OWNER" "A",
          (((∅ : Record).insert "STNAME" "ELM").insert "STNO" "").insert "OWNER" "B"]).map
        (fun r => (r.get "STNAME", r.get "STNO", r.get "OWNER")) =
      [("ELM", "", "B"), ("ELM", "", "A")] := by
  decide
end NccNeighborhood
